import Mathlib

/-
Verification of the authorization-token lifecycle and HTTP request/retry
layer of the vendored globus_sdk library (authorizers/renewing.py,
authorizers/refresh_token.py, authorizers/client_credentials.py, base.py,
exc.py, transfer/paging.py), as a shallow embedding in Lean.
-/

set_option linter.unusedVariables false

namespace GlobusSDK

/-- One resource-server token record, as produced by
token_response._convert_token_info_dict and consumed by
RenewingAuthorizer._get_new_access_token: fields access_token,
expires_at_seconds, refresh_token (optional). -/
structure TokenData where
  access_token : String
  expires_at_seconds : Int
  refresh_token : Option String
deriving DecidableEq, Repr

/-- The mutable token fields of a RenewingAuthorizer
(authorizers/renewing.py): access_token, expires_at (stores the already
skew-adjusted effective expiry), and, for the RefreshTokenAuthorizer
subclass, refresh_token. The log-only access_token_hash is omitted. -/
structure AuthState where
  access_token : Option String
  expires_at : Option Int
  refresh_token : Option String
deriving DecidableEq, Repr

/-- authorizers/renewing.py line 13. -/
def EXPIRES_ADJUST_SECONDS : Int := 60

/-- The two concrete RenewingAuthorizer subclasses. -/
inductive AuthVariant
  | refreshToken
  | clientCredentials
deriving DecidableEq, Repr

/-- Failures of the renewal procedure: ambiguousToken embeds the ValueError
raised by _extract_token_data when by_resource_server has length other than
one; renewalFailure embeds any exception raised by _get_token_response
(the grant call itself failing). -/
inductive AuthFailure
  | ambiguousToken
  | renewalFailure
deriving DecidableEq, Repr

/-- Models res.by_resource_server.values() of a token response. -/
abbrev TokenResponse := List TokenData

/-- Python dict assignment d[k] = v on a string-to-string dict, keyed
lists standing in for dicts. -/
def dictSet : List (String × String) → String → String → List (String × String)
  | [], k, v => [(k, v)]
  | (k0, v0) :: rest, k, v =>
    if k0 = k then (k, v) :: rest else (k0, v0) :: dictSet rest k v

/-- Python dict lookup d.get(k). -/
def dictGet (d : List (String × String)) (k : String) : Option String :=
  (d.find? (fun p => p.1 == k)).map (fun p => p.2)

/-- Python dict.update(upd) applied to base. -/
def dictUpdate (base upd : List (String × String)) : List (String × String) :=
  upd.foldl (fun d p => dictSet d p.1 p.2) base

namespace Renewing

/-- RenewingAuthorizer._set_expiration_time (renewing.py lines 115-125):
stores expires_at - EXPIRES_ADJUST_SECONDS. -/
def set_expiration_time (st : AuthState) (expires_at : Int) : AuthState :=
  { st with expires_at := some (expires_at - EXPIRES_ADJUST_SECONDS) }

/-- _extract_token_data of RefreshTokenAuthorizer (refresh_token.py lines
86-108) and ClientCredentialsAuthorizer (client_credentials.py lines
95-108). Both first check that by_resource_server yields exactly one
record, raising ValueError (modelled as ambiguousToken) otherwise; the
refresh variant then, on success only, replaces the stored refresh_token
when the record carries one. Returns the possibly-updated state together
with the extraction outcome. -/
def extract_token_data (v : AuthVariant) (st : AuthState)
    (res : TokenResponse) : AuthState × Except AuthFailure TokenData :=
  match res with
  | [td] =>
    match v with
    | .refreshToken =>
      match td.refresh_token with
      | some rt => ({ st with refresh_token := some rt }, .ok td)
      | none => (st, .ok td)
    | .clientCredentials => (st, .ok td)
  | _ => (st, .error .ambiguousToken)

/-- RenewingAuthorizer._get_new_access_token (renewing.py lines 127-148).
The outcome of _get_token_response is supplied externally as resp
(.error = the grant call raised). On success, sets the adjusted
expiration time and the new access token; on any failure the exception
propagates and the fields are left as they were. The on_refresh callback
is an observer and is not modelled. -/
def get_new_access_token (v : AuthVariant) (st : AuthState)
    (resp : Except AuthFailure TokenResponse) : AuthState × Option AuthFailure :=
  match resp with
  | .error e => (st, some e)
  | .ok res =>
    match extract_token_data v st res with
    | (st1, .ok td) =>
      let st2 := set_expiration_time st1 td.expires_at_seconds
      ({ st2 with access_token := some td.access_token }, none)
    | (st1, .error e) => (st1, some e)

/-- The renewal condition of RenewingAuthorizer.check_expiration_time
(renewing.py lines 161-163): access_token is None, or expires_at is None,
or time.time() > expires_at. -/
def needs_new_token (st : AuthState) (now : Int) : Bool :=
  match st.access_token, st.expires_at with
  | none, _ => true
  | some _, none => true
  | some _, some e => decide (now > e)

/-- Result of check_expiration_time: final state, the number of
_get_new_access_token invocations performed, and the propagated
exception if the renewal failed. -/
structure CheckResult where
  st : AuthState
  renewCalls : Nat
  err : Option AuthFailure
deriving DecidableEq, Repr

/-- RenewingAuthorizer.check_expiration_time (renewing.py lines 151-172),
at instant now, with the grant outcome resp supplied externally. -/
def check_expiration_time (v : AuthVariant) (st : AuthState) (now : Int)
    (resp : Except AuthFailure TokenResponse) : CheckResult :=
  if needs_new_token st now then
    let (st1, e) := get_new_access_token v st resp
    { st := st1, renewCalls := 1, err := e }
  else
    { st := st, renewCalls := 0, err := none }

/-- Python string interpolation of an Option: "%s" % None renders "None". -/
def pyStr : Option String → String
  | some s => s
  | none => "None"

/-- Result of set_authorization_header: final authorizer state, renewal
call count, propagated exception (if the implicit check_expiration_time
raised, in which case the header dict is untouched), and the header dict. -/
structure DecorateResult where
  st : AuthState
  renewCalls : Nat
  err : Option AuthFailure
  headers : List (String × String)
deriving DecidableEq, Repr

/-- RenewingAuthorizer.set_authorization_header (renewing.py lines
174-187): runs check_expiration_time, then sets
headers["Authorization"] = "Bearer %s" % access_token. -/
def set_authorization_header (v : AuthVariant) (st : AuthState) (now : Int)
    (resp : Except AuthFailure TokenResponse)
    (headers : List (String × String)) : DecorateResult :=
  match check_expiration_time v st now resp with
  | { st := st1, renewCalls := n, err := some e } =>
    { st := st1, renewCalls := n, err := some e, headers := headers }
  | { st := st1, renewCalls := n, err := none } =>
    { st := st1, renewCalls := n, err := none,
      headers := dictSet headers "Authorization"
        ("Bearer " ++ pyStr st1.access_token) }

/-- RenewingAuthorizer.handle_missing_authorization (renewing.py lines
189-205): sets expires_at to None and returns True. -/
def handle_missing_authorization (st : AuthState) : AuthState × Bool :=
  ({ st with expires_at := none }, true)

/-- Result of the constructor: final state, renewal call count, and the
propagated exception when the initial renewal failed (construction fails). -/
structure InitResult where
  st : AuthState
  renewCalls : Nat
  err : Option AuthFailure
deriving DecidableEq, Repr

/-- RenewingAuthorizer.__init__ (renewing.py lines 55-97), with the
subclass-specific refresh_token seed installed first (refresh_token.py
line 73; none for the client-credentials variant). An access_token given
without expires_at is coerced to None; expires_at is stored (adjusted)
only when an access_token is also present; when both end up absent, one
synchronous renewal is performed, whose grant outcome is resp. -/
def renewing_init (v : AuthVariant) (access_token : Option String)
    (expires_at : Option Int) (refresh_token_seed : Option String)
    (resp : Except AuthFailure TokenResponse) : InitResult :=
  let access_token := if access_token.isSome && expires_at.isNone then none
                      else access_token
  let st0 : AuthState :=
    { access_token := access_token, expires_at := none,
      refresh_token := refresh_token_seed }
  let st1 :=
    match expires_at with
    | some e => if st0.access_token.isSome then set_expiration_time st0 e else st0
    | none => st0
  if st1.access_token.isNone && st1.expires_at.isNone then
    let g := get_new_access_token v st1 resp
    { st := g.1, renewCalls := 1, err := g.2 }
  else
    { st := st1, renewCalls := 0, err := none }

end Renewing

/-- JSON values, as Python objects decoded by requests Response.json():
dicts keyed by strings, lists, strings, numbers, booleans, None. -/
inductive Json
  | null
  | bool (b : Bool)
  | num (n : Int)
  | str (s : String)
  | arr (elems : List Json)
  | obj (fields : List (String × Json))

/-- One HTTP response as observed by the SDK: status code, the
Content-Type header value if present, the result of Response.json()
(none when the body is not parseable JSON, in which case .json() raises
ValueError), and Response.text. -/
structure HttpResponse where
  status : Nat
  contentType : Option String
  jsonBody : Option Json
  rawText : String

/-- Substring containment, mirroring the Python expression pat in s. -/
def strContainsSub (s pat : String) : Bool :=
  (List.range (s.toList.length + 1)).any
    (fun i => ((s.toList.drop i).take pat.toList.length) == pat.toList)

/-- Python exceptions arising while reading an error body. -/
inductive PyExc
  | keyError
  | valueError
  | indexError
  | typeError
deriving DecidableEq, Repr

/-- Python len(x) on a decoded JSON value: defined for str, list, dict;
TypeError otherwise. -/
def pyLen : Json → Except PyExc Nat
  | .str s => .ok s.length
  | .arr xs => .ok xs.length
  | .obj fs => .ok fs.length
  | _ => .error .typeError

/-- Python subscript x[k] with a string key: dict lookup (KeyError when
missing); TypeError on list, str and any other decoded JSON value. -/
def pySubscriptS (d : Json) (k : String) : Except PyExc Json :=
  match d with
  | .obj fs =>
    match fs.find? (fun p => p.1 == k) with
    | some p => .ok p.2
    | none => .error .keyError
  | _ => .error .typeError

/-- Python subscript x[0]: list and str index (IndexError when empty);
dict lookup with integer key 0, which is never present in a decoded JSON
dict, hence KeyError; TypeError otherwise. -/
def pySubscript0 (d : Json) : Except PyExc Json :=
  match d with
  | .obj _ => .error .keyError
  | .arr [] => .error .indexError
  | .arr (x :: _) => .ok x
  | .str s => if s.isEmpty then .error .indexError else .ok (.str (s.take 1))
  | _ => .error .typeError

/-- Python membership test k in x on a decoded JSON value: dict key test,
list membership (a string equals only an equal string), substring test on
str; TypeError on non-iterables. -/
def pyContains (d : Json) (k : String) : Except PyExc Bool :=
  match d with
  | .obj fs => .ok (fs.any (fun p => p.1 == k))
  | .arr xs => .ok (xs.any (fun j => match j with | .str s => s == k | _ => false))
  | .str s => .ok (strContainsSub s k)
  | _ => .error .typeError

/-- GlobusAPIError._load_from_json (exc.py lines 114-141): if "errors" is
present, take data["errors"][0] (the len() in the logging check can
itself raise TypeError); then read data["code"], and data["message"] when
the "message" key is present, else data["detail"]. Returns (code,
message), or the Python exception raised. -/
def load_from_json (data : Json) : Except PyExc (Json × Json) := do
  let hasErrs ← pyContains data "errors"
  let data2 ←
    if hasErrs then do
      let errs ← pySubscriptS data "errors"
      let _ ← pyLen errs
      pySubscript0 errs
    else pure data
  let code ← pySubscriptS data2 "code"
  let hasMsg ← pyContains data2 "message"
  let msg ←
    if hasMsg then pySubscriptS data2 "message"
    else pySubscriptS data2 "detail"
  pure (code, msg)

/-- The attributes GlobusAPIError.__init__ establishes on success. -/
structure ApiErrorData where
  http_status : Nat
  code : Json
  message : Json

/-- Whether the Content-Type check of GlobusAPIError.__init__ (exc.py
lines 41-43) selects the JSON path: the header is present and contains
"application/json". -/
def contentTypeIsJson (r : HttpResponse) : Bool :=
  match r.contentType with
  | some s => strContainsSub s "application/json"
  | none => false

/-- GlobusAPIError.__init__ (exc.py lines 38-72): on a JSON content type,
load code and message from the parsed body, falling back to
_load_from_text (code "Error", message = raw text) when r.json() raises
ValueError or the JSON load raises KeyError or ValueError; any other
exception from the load propagates. On any other content type, always
the text fallback. -/
def globusAPIError_init (r : HttpResponse) : Except PyExc ApiErrorData :=
  if contentTypeIsJson r then
    match r.jsonBody with
    | some data =>
      match load_from_json data with
      | .ok (c, m) => .ok ⟨r.status, c, m⟩
      | .error .keyError => .ok ⟨r.status, .str "Error", .str r.rawText⟩
      | .error .valueError => .ok ⟨r.status, .str "Error", .str r.rawText⟩
      | .error e => .error e
    | none => .ok ⟨r.status, .str "Error", .str r.rawText⟩
  else .ok ⟨r.status, .str "Error", .str r.rawText⟩

/-- SDK-level exceptions raised by the request layer: assertionError
embeds the bare assert at base.py line 489; usageError embeds
GlobusSDKUsageError (exc.py lines 16-23, raised at base.py line 101 and
paging.py line 327); apiError embeds raise self.error_class(r) at
base.py line 553, carrying the response the structured error is built
from; networkError embeds the converted requests exceptions. -/
inductive SdkExc
  | assertionError
  | usageError
  | apiError (r : HttpResponse)
  | networkError

/-- The authorizer operations BaseClient._request invokes, for an
arbitrary authorizer with internal state sigma whose operations return
normally. -/
structure AuthorizerOps (σ : Type) where
  set_authorization_header : σ → List (String × String) → σ × List (String × String)
  handle_missing_authorization : σ → σ × Bool

/-- Outcome of BaseClient._request: the returned response or raised
exception, the number of HTTP sends performed, the final authorizer
state, and the final header dict. -/
structure RequestResult (σ : Type) where
  result : Except SdkExc HttpResponse
  sends : Nat
  authSt : σ
  headers : List (String × String)

namespace BaseClient

/-- BaseClient._request (base.py lines 437-553). Caller headers are
merged over the client defaults; a JSON body asserts that no text body
was also given (base.py line 489) and forces the Content-Type header; the
authorizer, when configured, decorates the headers; the backend is
modelled as the function send from the send index (0 = initial request,
1 = the 401 retry) to the response; a 401 with retry_401 and an
authorizer triggers handle_missing_authorization and, when it returns
true, one re-decoration and exactly one resend; a final status in
[200, 400) is returned, any other final status raises the structured API
error built from the final response. The JSON serialization of the body
and the URL join do not affect the modelled observables and are omitted. -/
def request {σ : Type} (A : Option (AuthorizerOps σ)) (s : σ)
    (clientHeaders callerHeaders : List (String × String))
    (json_body : Option Json) (text_body : Option String)
    (retry_401 : Bool) (send : Nat → HttpResponse) : RequestResult σ :=
  let rheaders := dictUpdate clientHeaders callerHeaders
  if json_body.isSome && text_body.isSome then
    { result := .error .assertionError, sends := 0, authSt := s,
      headers := rheaders }
  else
    let rheaders :=
      if json_body.isSome then dictSet rheaders "Content-Type" "application/json"
      else rheaders
    let d0 :=
      match A with
      | some ops => ops.set_authorization_header s rheaders
      | none => (s, rheaders)
    let r0 := send 0
    let retried :=
      if r0.status == 401 && retry_401 && A.isSome then
        match A with
        | some ops =>
          let rec0 := ops.handle_missing_authorization d0.1
          if rec0.2 then
            let d1 := ops.set_authorization_header rec0.1 d0.2
            (send 1, d1.1, d1.2, 2)
          else (r0, rec0.1, d0.2, 1)
        | none => (r0, d0.1, d0.2, 1)
      else (r0, d0.1, d0.2, 1)
    if 200 ≤ retried.1.status && retried.1.status < 400 then
      { result := .ok retried.1, sends := retried.2.2.2, authSt := retried.2.1,
        headers := retried.2.2.1 }
    else
      { result := .error (.apiError retried.1), sends := retried.2.2.2,
        authSt := retried.2.1, headers := retried.2.2.1 }

end BaseClient

namespace Paging

/-- paging.py lines 28-36. -/
def PAGING_STYLE_HAS_NEXT : Int := 0

def PAGING_STYLE_TOTAL : Int := 1

def PAGING_STYLE_LAST_KEY : Int := 2

def PAGING_STYLE_MARKER : Int := 3

/-- One page as returned by the Transfer API: the DATA array plus the
style-specific paging fields read by _check_has_next_page. -/
structure Page (α : Type) where
  DATA : List α
  has_next_page : Bool
  total : Int
  last_key : Option String
  next_marker : Option String
deriving DecidableEq, Repr

/-- The paging-related entries of client_kwargs["params"]; an Option
field is none while the corresponding key has not been written. -/
structure PagParams where
  limit : Option Int := none
  offset : Option Int := none
  marker : Option String := none
  last_key : Option String := none
deriving DecidableEq, Repr

/-- Python truthiness of an optional string marker: None and the empty
string are falsy. -/
def pyTruthy : Option String → Bool
  | none => false
  | some s => !(s == "")

/-- Where the iterable_func generator is suspended: before its first
statement, at the top of the while loop, immediately after yielding an
item (with the rest of the current page and the page itself), or done. -/
inductive GenControl (α : Type)
  | start
  | loopTop
  | afterYield (rest : List α) (res : Page α)
  | finished
deriving DecidableEq, Repr

/-- The mutable state shared between a PaginatedResource and its
iterable_func generator (paging.py: the self attributes written in
__init__ and mutated by the generator), plus the control position and an
instrumentation counter of client_method calls. The source initializes
limit to None and assigns it at generator start before any read; it is
modelled as an Int that is dead until the start step runs. -/
structure GenSt (α : Type) where
  paging_style : Int
  max_results_per_call : Int
  num_results : Option Int
  limit : Int
  offset : Int
  next_marker : Option String
  num_results_fetched : Nat
  flag : Bool
  params : PagParams
  calls : Nat
  control : GenControl α
deriving DecidableEq, Repr

/-- PaginatedResource.__init__ bookkeeping (paging.py lines 123-173):
num_results is capped by max_total_results (taking max_total_results when
num_results is None), the knobs are stored, and the generator is created
suspended at its start. The eager first next() of lines 175-184 is
performed by pagResInit. -/
def mkGenSt (α : Type) (paging_style : Int) (num_results : Option Int)
    (max_results_per_call : Int) (max_total_results : Option Int)
    (offset : Int) : GenSt α :=
  let num_results :=
    match max_total_results, num_results with
    | some m, none => some m
    | some m, some n => if n > m then some m else some n
    | none, n => n
  { paging_style := paging_style, max_results_per_call := max_results_per_call,
    num_results := num_results, limit := 0, offset := offset,
    next_marker := none, num_results_fetched := 0, flag := false,
    params := {}, calls := 0, control := .start }

/-- _set_params_for_next_call (paging.py lines 262-285): shrink limit on
the final page of a bounded request, write the limit parameter, then the
marker, last_key or offset parameter according to the paging style. -/
def set_params_for_next_call {α : Type} (st : GenSt α) : GenSt α :=
  let st :=
    match st.num_results with
    | some n =>
      if st.offset + st.limit > n then { st with limit := n - st.offset } else st
    | none => st
  let p := { st.params with limit := some st.limit }
  let p :=
    if st.paging_style = PAGING_STYLE_MARKER then
      if pyTruthy st.next_marker then { p with marker := st.next_marker } else p
    else if st.paging_style = PAGING_STYLE_LAST_KEY then
      if pyTruthy st.next_marker then { p with last_key := st.next_marker } else p
    else { p with offset := some st.offset }
  { st with params := p }

/-- _check_has_next_page (paging.py lines 287-327): LAST_KEY stores the
last_key and reads has_next_page; MARKER stores the marker and tests its
truthiness; the offset styles first advance offset by
max_results_per_call, then HAS_NEXT reads has_next_page and TOTAL
compares the new offset against the declared total; any other style
raises GlobusSDKUsageError. -/
def check_has_next_page {α : Type} (st : GenSt α) (res : Page α) :
    GenSt α × Except SdkExc Bool :=
  if st.paging_style = PAGING_STYLE_LAST_KEY then
    ({ st with next_marker := res.last_key }, .ok res.has_next_page)
  else if st.paging_style = PAGING_STYLE_MARKER then
    ({ st with next_marker := res.next_marker }, .ok (pyTruthy res.next_marker))
  else
    let st := { st with offset := st.offset + st.max_results_per_call }
    if st.paging_style = PAGING_STYLE_HAS_NEXT then (st, .ok res.has_next_page)
    else if st.paging_style = PAGING_STYLE_TOTAL then
      (st, .ok (decide (st.offset < res.total)))
    else (st, .error .usageError)

/-- What one resumption of the generator produced: an item, a normal
StopIteration, or a raised exception. -/
inductive ResumeOut (α : Type)
  | yielded (st : GenSt α) (x : α)
  | stopped (st : GenSt α)
  | raised (st : GenSt α) (e : SdkExc)

/-- Shared tail of the generator when the current page is exhausted:
evaluate has_next_page and either loop again or leave the while loop
(ending the generator). -/
inductive PageEndStep (α : Type)
  | continueLoop (st : GenSt α)
  | out (o : ResumeOut α)

/-- End-of-page transition of iterable_func (paging.py line 359 back to
line 330). -/
def page_end {α : Type} (st : GenSt α) (res : Page α) : PageEndStep α :=
  match check_has_next_page st res with
  | (st3, .ok true) => .continueLoop { st3 with control := .loopTop }
  | (st3, .ok false) => .out (.stopped { st3 with control := .finished })
  | (st3, .error e) => .out (.raised { st3 with control := .finished } e)

/-- One basic block of the iterable_func generator (paging.py lines
243-359) against the backend server, which maps the current params dict
to a page: either an internal transition that neither yields nor ends
(inl, the generator prologue at lines 254-260 and the wrap from the end
of one page to the fetch of the next), or the observable outcome of the
resumption (inr). At start the limit is initialized to
max_results_per_call capped by num_results (lines 257-260); at the top
of the while loop the params are set and a page fetched; after a yield,
num_results_fetched is incremented and, when it reaches a set
num_results, the generator sets _limit_less_than_available_results and
returns (lines 343-357). -/
def genStep {α : Type} (server : PagParams → Page α) (st : GenSt α) :
    GenSt α ⊕ ResumeOut α :=
  match st.control with
  | .finished => .inr (.stopped st)
  | .start =>
    let l0 := st.max_results_per_call
    let l1 :=
      match st.num_results with
      | some n => min n l0
      | none => l0
    .inl { st with limit := l1, control := .loopTop }
  | .loopTop =>
    let st1 := set_params_for_next_call st
    let res := server st1.params
    let st2 := { st1 with calls := st1.calls + 1 }
    match res.DATA with
    | x :: rest => .inr (.yielded { st2 with control := .afterYield rest res } x)
    | [] =>
      match page_end st2 res with
      | .continueLoop st3 => .inl st3
      | .out o => .inr o
  | .afterYield rest res =>
    let st1 := { st with num_results_fetched := st.num_results_fetched + 1 }
    match st1.num_results with
    | some n =>
      if (st1.num_results_fetched : Int) ≥ n then
        .inr (.stopped { st1 with flag := true, control := .finished })
      else
        match rest with
        | x :: rest2 => .inr (.yielded { st1 with control := .afterYield rest2 res } x)
        | [] =>
          match page_end st1 res with
          | .continueLoop st3 => .inl st3
          | .out o => .inr o
    | none =>
      match rest with
      | x :: rest2 => .inr (.yielded { st1 with control := .afterYield rest2 res } x)
      | [] =>
        match page_end st1 res with
        | .continueLoop st3 => .inl st3
        | .out o => .inr o

/-- One resumption of the iterable_func generator: run basic blocks until
one produces an observable outcome. Fuel bounds the number of internal
transitions (consecutive pages traversed without yielding); none means
the fuel ran out (the source would keep looping against such a backend). -/
def genResume {α : Type} (server : PagParams → Page α) :
    Nat → GenSt α → Option (ResumeOut α)
  | 0, _ => none
  | fuel + 1, st =>
    match genStep server st with
    | .inr o => some o
    | .inl st2 => genResume server fuel st2

/-- Repeated resumption until StopIteration: the full record sequence the
generator yields, with the final shared state. none when the fuel ran
out or the generator raised. -/
def genDrain {α : Type} (server : PagParams → Page α) :
    Nat → GenSt α → Option (List α × GenSt α)
  | 0, _ => none
  | fuel + 1, st =>
    match genResume server (fuel + 1) st with
    | none => none
    | some (.raised _ _) => none
    | some (.stopped st2) => some ([], st2)
    | some (.yielded st2 x) =>
      match genDrain server fuel st2 with
      | none => none
      | some (xs, st3) => some (x :: xs, st3)

/-- The PaginatedResource object after construction: the shared state, a
flag modelling whether self.generator is non-None, and the cached
first_elem (none models the consumed _magic sentinel). -/
structure PagRes (α : Type) where
  st : GenSt α
  genAlive : Bool
  first_elem : Option α
deriving DecidableEq, Repr

/-- What one PaginatedResource.__next__ call produced. -/
inductive NextOut (α : Type)
  | item (x : α)
  | stopIteration
  | raised (e : SdkExc)

/-- The eager first fetch of PaginatedResource.__init__ (paging.py lines
171-184): next(self.generator), caching the first element, or nulling
the generator on StopIteration; an exception propagates out of
construction. The outer Option is fuel exhaustion. -/
def pagResInit {α : Type} (server : PagParams → Page α) (fuel : Nat)
    (st0 : GenSt α) : Option (Except SdkExc (PagRes α)) :=
  match genResume server fuel st0 with
  | none => none
  | some (.yielded st x) =>
    some (.ok { st := st, genAlive := true, first_elem := some x })
  | some (.stopped st) =>
    some (.ok { st := st, genAlive := false, first_elem := none })
  | some (.raised _ e) => some (.error e)

/-- PaginatedResource.__next__ (paging.py lines 218-241): StopIteration
when the generator was nulled, otherwise deliver the cached first
element, otherwise resume the generator. -/
def pagRes_next {α : Type} (server : PagParams → Page α) (fuel : Nat)
    (r : PagRes α) : Option (PagRes α × NextOut α) :=
  if !r.genAlive then some (r, .stopIteration)
  else
    match r.first_elem with
    | some x => some ({ r with first_elem := none }, .item x)
    | none =>
      match genResume server fuel r.st with
      | none => none
      | some (.yielded st2 x) => some ({ r with st := st2 }, .item x)
      | some (.stopped st2) => some ({ r with st := st2 }, .stopIteration)
      | some (.raised st2 e) => some ({ r with st := st2 }, .raised e)

/-- PaginatedResource.limit_less_than_available_results (paging.py lines
186-197). -/
def limit_less_than_available_results {α : Type} (r : PagRes α) : Bool :=
  r.st.flag

/-- A conforming offset-style endpoint over an underlying record list:
returns the window of the records selected by the offset and limit query
parameters, declares has_next_page exactly when records remain beyond the
window, and declares the total record count. -/
def idealServer {α : Type} (recs : List α) (p : PagParams) : Page α :=
  let o := (p.offset.getD 0).toNat
  let l := (p.limit.getD 0).toNat
  { DATA := (recs.drop o).take l,
    has_next_page := decide (o + l < recs.length),
    total := (recs.length : Int),
    last_key := none,
    next_marker := none }

/-- An opaque pagination key whose decoding is its length: the key for
position k is a string of k characters. The client treats keys as opaque
(paging.py lines 275-281 just carry them back), so any injective encoding
models a conforming endpoint; this one keeps the arithmetic visible. -/
def encodeKey (k : Nat) : String :=
  String.mk (List.replicate k 'x')

/-- The position a marker/last_key-style request asks for: decoded from
the marker query parameter if present, else from the last_key parameter,
else the start of the result set. -/
def keyPos (p : PagParams) : Nat :=
  (p.marker.getD (p.last_key.getD "")).length

/-- A conforming keyed endpoint (the LAST_KEY and MARKER protocols of
paging.py lines 294-306) over an underlying record list: returns the
window at the decoded key position, declares has_next_page and a last_key
for the following window, and sets next_marker exactly when records
remain (absent otherwise, the falsy case the client accepts). -/
def idealServerKeyed {α : Type} (recs : List α) (p : PagParams) : Page α :=
  let o := keyPos p
  let l := (p.limit.getD 0).toNat
  { DATA := (recs.drop o).take l,
    has_next_page := decide (o + l < recs.length),
    total := (recs.length : Int),
    last_key := some (encodeKey (o + l)),
    next_marker := if o + l < recs.length then some (encodeKey (o + l)) else none }

/-- The conforming endpoint for each paging style: the offset protocol
for HAS_NEXT and TOTAL, the keyed protocol for LAST_KEY and MARKER. -/
def conformingServer {α : Type} (sty : Int) (recs : List α) :
    PagParams → Page α :=
  if sty = PAGING_STYLE_LAST_KEY ∨ sty = PAGING_STYLE_MARKER then
    idealServerKeyed recs
  else idealServer recs

end Paging

/-! Theorems. -/

/-- Key lookup after dict assignment returns the assigned value. -/
theorem dictGet_dictSet (d : List (String × String)) (k v : String) :
    dictGet (dictSet d k v) k = some v := by
  induction d with
  | nil => simp [dictSet, dictGet]
  | cons p rest ih =>
    by_cases h : p.1 = k
    · simp [dictSet, dictGet, h]
    · simpa [dictSet, dictGet, h] using ih

/-- A successful check_expiration_time leaves a present access token: if no
renewal was needed the token was already present, and a successful renewal
installs one. -/
theorem check_expiration_time_token_present (v : AuthVariant) (st : AuthState)
    (now : Int) (resp : Except AuthFailure TokenResponse)
    (h : (Renewing.check_expiration_time v st now resp).err = none) :
    ∃ tok, (Renewing.check_expiration_time v st now resp).st.access_token = some tok := by
  unfold Renewing.check_expiration_time at h ⊢
  by_cases hn : Renewing.needs_new_token st now
  · simp only [hn, if_true] at h ⊢
    unfold Renewing.get_new_access_token at h ⊢
    match resp with
    | .error e => simp at h
    | .ok res =>
      match hres : Renewing.extract_token_data v st res with
      | (st1, .ok td) => simp [hres]
      | (st1, .error e) => simp [hres] at h
  · simp only [hn, if_false, Bool.false_eq_true] at h ⊢
    unfold Renewing.needs_new_token at hn
    match hat : st.access_token, hex : st.expires_at with
    | none, _ => rw [hat] at hn; simp at hn
    | some t, none => rw [hat, hex] at hn; simp at hn
    | some t, some e => exact ⟨t, rfl⟩

/-- C2 (amended): a renewing authorizer holding a token with stored
effective expiry T performs zero renewal calls when decorate runs at any
instant less than or equal to T, and exactly one renewal call at any
instant strictly greater than T. The source condition (renewing.py line
162) is time.time() > self.expires_at, so the boundary instant now = T
does not renew. -/
theorem C2_renewal_timing_amended (v : AuthVariant) (tok : String)
    (rt : Option String) (T now : Int)
    (resp : Except AuthFailure TokenResponse) (hdrs : List (String × String)) :
    (now ≤ T →
      (Renewing.set_authorization_header v ⟨some tok, some T, rt⟩ now resp hdrs).renewCalls = 0) ∧
    (now > T →
      (Renewing.set_authorization_header v ⟨some tok, some T, rt⟩ now resp hdrs).renewCalls = 1) := by
  have hneed : Renewing.needs_new_token ⟨some tok, some T, rt⟩ now = decide (now > T) := rfl
  constructor
  · intro h
    have : Renewing.needs_new_token ⟨some tok, some T, rt⟩ now = false := by
      rw [hneed]; simp; omega
    unfold Renewing.set_authorization_header Renewing.check_expiration_time
    simp [this]
  · intro h
    have : Renewing.needs_new_token ⟨some tok, some T, rt⟩ now = true := by
      rw [hneed]; simp; omega
    unfold Renewing.set_authorization_header Renewing.check_expiration_time
    simp only [this, if_true]
    rcases hg : Renewing.get_new_access_token v ⟨some tok, some T, rt⟩ resp with ⟨st1, e⟩
    cases e <;> simp

/-- C2 witness: at instants 5 (before expiry 10) and 11 (after expiry 10)
the amended boundary behavior is exhibited on concrete states. -/
theorem C2_renewal_timing_witness :
    (Renewing.set_authorization_header .refreshToken ⟨some "t", some 10, none⟩ 5
      (.ok [⟨"n", 70, none⟩]) []).renewCalls = 0 ∧
    (Renewing.set_authorization_header .refreshToken ⟨some "t", some 10, none⟩ 11
      (.ok [⟨"n", 70, none⟩]) []).renewCalls = 1 :=
  ⟨(C2_renewal_timing_amended .refreshToken "t" none 10 5 (.ok [⟨"n", 70, none⟩]) []).1 (by decide),
   (C2_renewal_timing_amended .refreshToken "t" none 10 11 (.ok [⟨"n", 70, none⟩]) []).2 (by decide)⟩

/-- C2 counterexample: at the boundary instant now = T = 100 the claimed
"at any instant greater than or equal to T performs exactly one renewal
call" fails: decorate performs zero renewal calls there. -/
theorem C2_renewal_timing_counterexample :
    (100 : Int) ≥ 100 ∧
    (Renewing.set_authorization_header .refreshToken ⟨some "tok", some 100, none⟩ 100
      (.ok [⟨"new", 1000, none⟩]) []).renewCalls = 0 := by
  constructor
  · decide
  · rfl

/-- C3 counterexample: constructing with a seed token and expires_at = 0
(an effective expiry of -60, in the past for any plausible construction
instant) keeps the stale seed and performs zero renewal calls, against
the claimed UNINITIALIZED behavior of exactly one synchronous renewal.
The source constructor (renewing.py lines 55-97) never consults the
clock. -/
theorem C3_ctor_counterexample :
    Renewing.renewing_init .refreshToken (some "tok") (some 0) (some "rt")
      (.ok [⟨"new", 1000, some "rt2"⟩]) =
    ⟨⟨some "tok", some (-60), some "rt"⟩, 0, none⟩ := by
  rfl

/-- C3 (amended): when both seed access_token and expires_at are given,
the constructor stores effective expiry expires_at - 60 and performs no
renewal, even when that effective expiry is already in the past (renewal
is deferred to the first decorate); when exactly one of the pair is
given, the seed is discarded and construction behaves as with neither;
with neither, exactly one synchronous renewal is performed, and a failed
renewal fails construction with the state still tokenless. -/
theorem C3_ctor_amended :
    (∀ (v : AuthVariant) (a : String) (e : Int) (rt : Option String)
        (resp : Except AuthFailure TokenResponse),
      Renewing.renewing_init v (some a) (some e) rt resp =
        ⟨⟨some a, some (e - 60), rt⟩, 0, none⟩) ∧
    (∀ (v : AuthVariant) (a : String) (rt : Option String)
        (resp : Except AuthFailure TokenResponse),
      Renewing.renewing_init v (some a) none rt resp =
        Renewing.renewing_init v none none rt resp) ∧
    (∀ (v : AuthVariant) (e : Int) (rt : Option String)
        (resp : Except AuthFailure TokenResponse),
      Renewing.renewing_init v none (some e) rt resp =
        Renewing.renewing_init v none none rt resp) ∧
    (∀ (v : AuthVariant) (rt : Option String)
        (resp : Except AuthFailure TokenResponse),
      (Renewing.renewing_init v none none rt resp).renewCalls = 1) ∧
    (∀ (v : AuthVariant) (rt : Option String) (e : AuthFailure),
      Renewing.renewing_init v none none rt (.error e) =
        ⟨⟨none, none, rt⟩, 1, some e⟩) := by
  refine ⟨?_, ?_, ?_, ?_, ?_⟩
  · intro v a e rt resp
    simp [Renewing.renewing_init, Renewing.set_expiration_time, EXPIRES_ADJUST_SECONDS]
  · intro v a rt resp
    simp [Renewing.renewing_init]
  · intro v e rt resp
    simp [Renewing.renewing_init]
  · intro v rt resp
    simp only [Renewing.renewing_init]
    rcases hg : Renewing.get_new_access_token v ⟨none, none, rt⟩ resp with ⟨st2, err⟩
    simp [hg]
  · intro v rt e
    simp [Renewing.renewing_init, Renewing.get_new_access_token]

/-- C5: a renewal attempt whose token response yields zero or more than
one resource-server token records fails with the ambiguous-token error
(the ValueError of _extract_token_data), and the authorizer state -
access token, effective expiry, and refresh token - is returned exactly
as it was, for both renewing variants. -/
theorem C5_ambiguous_token (v : AuthVariant) (st : AuthState)
    (res : TokenResponse) (h : res.length ≠ 1) :
    Renewing.get_new_access_token v st (.ok res) = (st, some .ambiguousToken) := by
  unfold Renewing.get_new_access_token Renewing.extract_token_data
  match res with
  | [] => rfl
  | [td] => simp at h
  | a :: b :: t => rfl

/-- C5 witness: a two-record response fails ambiguously and preserves the
prior state. -/
theorem C5_ambiguous_token_witness :
    Renewing.get_new_access_token .refreshToken ⟨some "a", some 5, some "r"⟩
      (.ok [⟨"t1", 100, none⟩, ⟨"t2", 200, none⟩]) =
    (⟨some "a", some 5, some "r"⟩, some .ambiguousToken) :=
  C5_ambiguous_token .refreshToken ⟨some "a", some 5, some "r"⟩
    [⟨"t1", 100, none⟩, ⟨"t2", 200, none⟩] (by decide)

/-- C6: handle_missing_authorization returns true and clears only the
stored effective expiry, leaving access_token and refresh_token
untouched and performing no renewal itself; the next decorate call then
performs exactly one renewal. -/
theorem C6_recover_clears_expiry (st : AuthState) :
    Renewing.handle_missing_authorization st = ({ st with expires_at := none }, true) ∧
    (∀ (v : AuthVariant) (now : Int) (resp : Except AuthFailure TokenResponse)
        (hdrs : List (String × String)),
      (Renewing.set_authorization_header v (Renewing.handle_missing_authorization st).1
        now resp hdrs).renewCalls = 1) := by
  refine ⟨rfl, ?_⟩
  intro v now resp hdrs
  have hneed : Renewing.needs_new_token { st with expires_at := none } now = true := by
    unfold Renewing.needs_new_token
    cases h : st.access_token <;> simp
  unfold Renewing.set_authorization_header Renewing.check_expiration_time
  simp only [Renewing.handle_missing_authorization, hneed, if_true]
  rcases hg : Renewing.get_new_access_token v { st with expires_at := none } resp with ⟨st1, e⟩
  cases e <;> simp

/-- C10: whenever decorate returns normally, the stored access token is
present and the Authorization header holds exactly "Bearer " followed by
that token; this holds for every state, hence for every state reachable
by construction, decorate and recoverFromAuthFailure. -/
theorem C10_header_invariant (v : AuthVariant) (st : AuthState) (now : Int)
    (resp : Except AuthFailure TokenResponse) (hdrs : List (String × String))
    (h : (Renewing.set_authorization_header v st now resp hdrs).err = none) :
    ∃ tok,
      (Renewing.set_authorization_header v st now resp hdrs).st.access_token = some tok ∧
      dictGet (Renewing.set_authorization_header v st now resp hdrs).headers "Authorization"
        = some ("Bearer " ++ tok) := by
  unfold Renewing.set_authorization_header at h ⊢
  rcases hc : Renewing.check_expiration_time v st now resp with ⟨st1, n, e⟩
  have herr : e = none := by
    rcases e with _ | e
    · rfl
    · rw [hc] at h; simp at h
  subst herr
  obtain ⟨tok, htok⟩ := check_expiration_time_token_present v st now resp (by rw [hc])
  rw [hc] at htok
  simp only at htok
  refine ⟨tok, ?_, ?_⟩
  · simp [htok]
  · simp only [htok, Renewing.pyStr]
    exact dictGet_dictSet hdrs "Authorization" ("Bearer " ++ tok)

/-- C1: with retry-on-401 enabled and an authorizer whose
recoverFromAuthFailure always reports true, a first send answered 401
leads to exactly two sends in total (never a third); if the second send
has a success status the call returns that response, and if it has any
status at or above 400 the call raises the structured API error built
from that final response. -/
theorem C1_single_retry {σ : Type} (ops : AuthorizerOps σ) (s : σ)
    (ch uh : List (String × String)) (jb : Option Json) (tb : Option String)
    (send : Nat → HttpResponse)
    (hbody : ¬(jb.isSome = true ∧ tb.isSome = true))
    (hrec : ∀ t : σ, (ops.handle_missing_authorization t).2 = true)
    (h401 : (send 0).status = 401) :
    (BaseClient.request (some ops) s ch uh jb tb true send).sends = 2 ∧
    (200 ≤ (send 1).status ∧ (send 1).status < 400 →
      (BaseClient.request (some ops) s ch uh jb tb true send).result = .ok (send 1)) ∧
    (400 ≤ (send 1).status →
      (BaseClient.request (some ops) s ch uh jb tb true send).result =
        .error (.apiError (send 1))) := by
  have hb : (jb.isSome && tb.isSome) = false := by
    rcases hj : jb.isSome <;> rcases ht : tb.isSome <;> simp_all
  have hcond : ((send 0).status == 401 && true && (Option.some ops).isSome) = true := by
    simp [h401]
  unfold BaseClient.request
  simp only [hb, Bool.false_eq_true, if_false, hcond, if_true, hrec]
  refine ⟨?_, ?_, ?_⟩
  · split <;> rfl
  · intro h2
    rw [if_pos]
    simp [h2.1, h2.2]
  · intro h2
    rw [if_neg]
    simp only [Bool.and_eq_true, decide_eq_true_eq]
    omega

/-- C1 witness: a backend answering 401 then 200 produces exactly two
sends and a successful result. -/
theorem C1_single_retry_witness :
    (BaseClient.request
      (some ⟨fun s h => (s, dictSet h "Authorization" "Bearer tok"),
             fun s => (s, true)⟩) () [] [] none none true
      (fun i => if i = 0 then ⟨401, none, none, "denied"⟩
                else ⟨200, none, none, "ok"⟩)).sends = 2 ∧
    (BaseClient.request
      (some ⟨fun s h => (s, dictSet h "Authorization" "Bearer tok"),
             fun s => (s, true)⟩) () [] [] none none true
      (fun i => if i = 0 then ⟨401, none, none, "denied"⟩
                else ⟨200, none, none, "ok"⟩)).result =
      .ok ⟨200, none, none, "ok"⟩ :=
  ⟨(C1_single_retry (σ := Unit)
      ⟨fun s h => (s, dictSet h "Authorization" "Bearer tok"),
       fun s => (s, true)⟩ () [] [] none none
      (fun i => if i = 0 then ⟨401, none, none, "denied"⟩
                else ⟨200, none, none, "ok"⟩)
      (by simp) (fun t => rfl) rfl).1,
   (C1_single_retry (σ := Unit)
      ⟨fun s h => (s, dictSet h "Authorization" "Bearer tok"),
       fun s => (s, true)⟩ () [] [] none none
      (fun i => if i = 0 then ⟨401, none, none, "denied"⟩
                else ⟨200, none, none, "ok"⟩)
      (by simp) (fun t => rfl) rfl).2.1 (by decide)⟩

/-- C4 counterexample: a request supplying both a structured and a raw
body fails before any send with the bare assert of base.py line 489
(AssertionError), which is not the UsageError (GlobusSDKUsageError) the
claim names. -/
theorem C4_both_bodies_counterexample :
    (BaseClient.request (none : Option (AuthorizerOps Unit)) () [] []
      (some (.obj [])) (some "body") true (fun _ => ⟨200, none, none, ""⟩)).result =
      .error .assertionError ∧
    (BaseClient.request (none : Option (AuthorizerOps Unit)) () [] []
      (some (.obj [])) (some "body") true (fun _ => ⟨200, none, none, ""⟩)).sends = 0 ∧
    SdkExc.assertionError ≠ SdkExc.usageError := by
  refine ⟨rfl, rfl, ?_⟩
  intro h
  exact SdkExc.noConfusion h

/-- The final step of the request protocol never produces an assertion
failure: it returns the response or raises the structured API error. -/
theorem ok_or_api_ne_assertion (c : Prop) [Decidable c] (a b : HttpResponse) :
    (if c then (Except.ok a : Except SdkExc HttpResponse)
     else .error (.apiError b)) ≠ .error .assertionError := by
  by_cases h : c
  · rw [if_pos h]
    intro hcon
    exact Except.noConfusion hcon
  · rw [if_neg h]
    intro hcon
    injection hcon with h2
    exact SdkExc.noConfusion h2

/-- C4 (amended): supplying both a structured and a raw body fails fast
with an assertion failure (AssertionError, not UsageError) before any
send, with zero requests transmitted; supplying at most one body form
passes the check, at least one request is sent and no assertion failure
is raised. -/
theorem C4_both_bodies_amended {σ : Type} (A : Option (AuthorizerOps σ)) (s : σ)
    (ch uh : List (String × String)) (jb : Json) (tb : String)
    (jb2 : Option Json) (tb2 : Option String) (r401 : Bool)
    (send : Nat → HttpResponse)
    (hone : ¬(jb2.isSome = true ∧ tb2.isSome = true)) :
    BaseClient.request A s ch uh (some jb) (some tb) r401 send =
      { result := .error .assertionError, sends := 0, authSt := s,
        headers := dictUpdate ch uh } ∧
    1 ≤ (BaseClient.request A s ch uh jb2 tb2 r401 send).sends ∧
    (BaseClient.request A s ch uh jb2 tb2 r401 send).result ≠
      .error .assertionError := by
  have hb : (jb2.isSome && tb2.isSome) = false := by
    rcases hj : jb2.isSome <;> rcases ht : tb2.isSome <;> simp_all
  refine ⟨rfl, ?_⟩
  unfold BaseClient.request
  simp only [hb, Bool.false_eq_true, if_false]
  rcases A with _ | ops <;>
    refine ⟨?_, ?_⟩ <;>
      simp only [Option.isSome_none, Option.isSome_some, Bool.and_false,
        Bool.and_true, Bool.false_eq_true, if_false]
  all_goals repeat' split
  all_goals simp only [apply_ite RequestResult.sends,
    apply_ite (RequestResult.result (σ := σ))]
  all_goals
    first
      | (simp; done)
      | exact ok_or_api_ne_assertion _ _ _

/-- C4 witness: both bodies given fails the assert with zero sends; a
single body form passes the check and one send happens. -/
theorem C4_both_bodies_witness :
    BaseClient.request (none : Option (AuthorizerOps Unit)) () [] []
      (some (.obj [])) (some "b") true (fun _ => ⟨200, none, none, ""⟩) =
      ⟨.error .assertionError, 0, (), []⟩ ∧
    1 ≤ (BaseClient.request (none : Option (AuthorizerOps Unit)) () [] []
      none none true (fun _ => ⟨200, none, none, ""⟩)).sends :=
  ⟨(C4_both_bodies_amended (none : Option (AuthorizerOps Unit)) () [] []
      (.obj []) "b" none none true (fun _ => ⟨200, none, none, ""⟩)
      (by simp)).1,
   (C4_both_bodies_amended (none : Option (AuthorizerOps Unit)) () [] []
      (.obj []) "b" none none true (fun _ => ⟨200, none, none, ""⟩)
      (by simp)).2.1⟩

/-- C9 counterexample: an HTTP 400 response with JSON content type and
the parsed body consisting of an object whose errors member is an empty
array makes the structured-error construction itself raise an uncaught
IndexError (exc.py line 129, only KeyError and ValueError are caught),
against the claim that the error path never raises. -/
theorem C9_error_path_counterexample :
    globusAPIError_init
      ⟨400, some "application/json", some (.obj [("errors", .arr [])]), "x"⟩ =
      .error .indexError := by
  rfl

/-- C9 (amended): error construction terminates normally with code and
message set, with the generic code "Error" and the raw text as message on
a non-JSON content type, an unparseable body, or a JSON load failing with
KeyError (or ValueError), and with the extracted code and message when
the load succeeds; however, loads raising IndexError or TypeError (for
example an empty errors array, or a non-object JSON body) propagate out
of the constructor, and those are the only exceptions that can escape. -/
theorem C9_error_construction_amended (r : HttpResponse) (hst : 400 ≤ r.status) :
    (∀ e, globusAPIError_init r = .error e → e = .indexError ∨ e = .typeError) ∧
    (contentTypeIsJson r = false →
      globusAPIError_init r = .ok ⟨r.status, .str "Error", .str r.rawText⟩) ∧
    (r.jsonBody = none → contentTypeIsJson r = true →
      globusAPIError_init r = .ok ⟨r.status, .str "Error", .str r.rawText⟩) ∧
    (∀ d, r.jsonBody = some d → contentTypeIsJson r = true →
      (load_from_json d = .error .keyError ∨ load_from_json d = .error .valueError) →
      globusAPIError_init r = .ok ⟨r.status, .str "Error", .str r.rawText⟩) ∧
    (∀ d c m, r.jsonBody = some d → contentTypeIsJson r = true →
      load_from_json d = .ok (c, m) →
      globusAPIError_init r = .ok ⟨r.status, c, m⟩) := by
  refine ⟨?_, ?_, ?_, ?_, ?_⟩
  · intro e he
    unfold globusAPIError_init at he
    by_cases hct : contentTypeIsJson r
    · rw [if_pos hct] at he
      rcases hjb : r.jsonBody with _ | d
      · simp only [hjb] at he
        simp at he
      · simp only [hjb] at he
        rcases hld : load_from_json d with pe | cm
        · simp only [hld] at he
          rcases pe with _ | _ | _ | _ <;> simp_all
        · rcases cm with ⟨c, m⟩
          simp only [hld] at he
          simp at he
    · rw [if_neg hct] at he; simp at he
  · intro hct
    unfold globusAPIError_init
    rw [if_neg (by simp [hct])]
  · intro hjb hct
    unfold globusAPIError_init
    rw [if_pos hct, hjb]
  · intro d hjb hct hld
    unfold globusAPIError_init
    rw [if_pos hct]
    simp only [hjb]
    rcases hld with hld | hld <;> simp only [hld]
  · intro d c m hjb hct hld
    unfold globusAPIError_init
    rw [if_pos hct]
    simp only [hjb, hld]

/-- C9 witness: a plain-text 404 response degrades to the generic code
"Error" with the raw text as the message. -/
theorem C9_error_construction_witness :
    globusAPIError_init ⟨404, none, none, "not found"⟩ =
      .ok ⟨404, .str "Error", .str "not found"⟩ :=
  (C9_error_construction_amended ⟨404, none, none, "not found"⟩ (by decide)).2.1 rfl

section PagingLemmas

open Paging

variable {α : Type} (server : PagParams → Page α)

/-- Resumption is monotone in fuel. -/
theorem genResume_mono (f : Nat) : ∀ (st : GenSt α) (o : ResumeOut α),
    genResume server f st = some o → genResume server (f + 1) st = some o := by
  induction f with
  | zero => intro st o h; simp [genResume] at h
  | succ f ih =>
    intro st o h
    cases hgs : genStep server st with
    | inl st2 =>
      rw [genResume, hgs] at h ⊢
      exact ih st2 o h
    | inr o2 =>
      rw [genResume, hgs] at h ⊢
      exact h

/-- Resumption is monotone in fuel (le form). -/
theorem genResume_mono_le {f g : Nat} (hfg : f ≤ g) (st : GenSt α)
    (o : ResumeOut α) (h : genResume server f st = some o) :
    genResume server g st = some o := by
  obtain ⟨d, rfl⟩ : ∃ d, g = f + d := ⟨g - f, by omega⟩
  clear hfg
  induction d with
  | zero => exact h
  | succ d ih => exact genResume_mono server (f + d) st o ih

/-- Draining is monotone in fuel. -/
theorem genDrain_mono (fuel : Nat) : ∀ (st : GenSt α) (r : List α × GenSt α),
    genDrain server fuel st = some r → genDrain server (fuel + 1) st = some r := by
  induction fuel with
  | zero => intro st r h; simp [genDrain] at h
  | succ fuel ih =>
    intro st r h
    rw [genDrain] at h ⊢
    rcases hr : genResume server (fuel + 1) st with _ | out
    · rw [hr] at h
      exact Option.noConfusion h
    · rw [hr] at h
      rw [genResume_mono server (fuel + 1) st out hr]
      cases out with
      | yielded st2 x =>
        rcases hd : genDrain server fuel st2 with _ | r2
        · simp only [hd] at h
          exact Option.noConfusion h
        · simp only [hd] at h
          simp only [ih st2 r2 hd]
          exact h
      | stopped st2 => exact h
      | raised st2 e => exact Option.noConfusion h

/-- Draining is monotone in fuel (le form). -/
theorem genDrain_mono_le {f g : Nat} (hfg : f ≤ g) (st : GenSt α)
    (r : List α × GenSt α) (h : genDrain server f st = some r) :
    genDrain server g st = some r := by
  obtain ⟨d, rfl⟩ : ∃ d, g = f + d := ⟨g - f, by omega⟩
  clear hfg
  induction d with
  | zero => exact h
  | succ d ih => exact genDrain_mono server (f + d) st r ih

/-- An internal transition adds one unit of fuel to a successful drain. -/
theorem genDrain_of_inl {st st2 : GenSt α} (h : genStep server st = .inl st2)
    {fuel : Nat} {r : List α × GenSt α} (hd : genDrain server fuel st2 = some r) :
    genDrain server (fuel + 1) st = some r := by
  match fuel, hd with
  | fuel + 1, hd =>
    have hres : genResume server (fuel + 2) st = genResume server (fuel + 1) st2 := by
      rw [genResume, h]
    rw [genDrain, hres]
    rw [genDrain] at hd
    rcases hr : genResume server (fuel + 1) st2 with _ | out
    · rw [hr] at hd
      exact Option.noConfusion hd
    · rw [hr] at hd
      cases out with
      | yielded st3 x =>
        rcases hd2 : genDrain server fuel st3 with _ | r2
        · simp only [hd2] at hd
          exact Option.noConfusion hd
        · simp only [hd2] at hd
          simp only [genDrain_mono server fuel st3 r2 hd2]
          exact hd
      | stopped st3 => exact hd
      | raised st3 e => exact Option.noConfusion hd

/-- A yielding step prepends its item to the rest of the drain. -/
theorem genDrain_of_yield {st st2 : GenSt α} {x : α}
    (h : genStep server st = .inr (.yielded st2 x))
    {fuel : Nat} {r : List α × GenSt α} (hd : genDrain server fuel st2 = some r) :
    genDrain server (fuel + 1) st = some (x :: r.1, r.2) := by
  rw [genDrain, genResume, h]
  simp only [hd]

/-- A stopping step ends the drain. -/
theorem genDrain_of_stop {st st2 : GenSt α} (h : genStep server st = .inr (.stopped st2))
    (fuel : Nat) : genDrain server (fuel + 1) st = some ([], st2) := by
  rw [genDrain, genResume, h]

/-- _check_has_next_page never touches the
_limit_less_than_available_results flag. -/
theorem check_has_next_flag (st : GenSt α) (res : Page α) :
    (check_has_next_page st res).1.flag = st.flag := by
  unfold check_has_next_page
  dsimp only
  repeat' split
  all_goals rfl

/-- The end-of-page transition preserves the flag when looping on. -/
theorem page_end_flag_inl {st st3 : GenSt α} {res : Page α}
    (h : page_end st res = .continueLoop st3) : st3.flag = st.flag := by
  unfold page_end at h
  rcases hc : check_has_next_page st res with ⟨stc, eb⟩
  rw [hc] at h
  have hflag : stc.flag = st.flag := by
    have h2 := check_has_next_flag st res
    rw [hc] at h2
    exact h2
  cases eb with
  | error e => simp at h
  | ok b =>
    cases b
    · simp at h
    · simp only at h
      injection h with h2
      rw [← h2]
      exact hflag

/-- The end-of-page transition preserves the flag when stopping. -/
theorem page_end_flag_stopped {st st4 : GenSt α} {res : Page α}
    (h : page_end st res = .out (.stopped st4)) : st4.flag = st.flag := by
  unfold page_end at h
  rcases hc : check_has_next_page st res with ⟨stc, eb⟩
  rw [hc] at h
  have hflag : stc.flag = st.flag := by
    have h2 := check_has_next_flag st res
    rw [hc] at h2
    exact h2
  cases eb with
  | error e => simp at h
  | ok b =>
    cases b
    · simp only at h
      injection h with h2
      injection h2 with h3
      rw [← h3]
      exact hflag
    · simp at h

/-- _set_params_for_next_call never touches the flag. -/
theorem set_params_flag (st : GenSt α) : (set_params_for_next_call st).flag = st.flag := by
  unfold set_params_for_next_call
  dsimp only
  repeat' split
  all_goals rfl

/-- The end-of-page transition never yields an item. -/
theorem page_end_not_yield {st st4 : GenSt α} {res : Page α} {x : α} :
    page_end st res ≠ .out (.yielded st4 x) := by
  unfold page_end
  rcases hc : check_has_next_page st res with ⟨stc, eb⟩
  cases eb with
  | error e => simp
  | ok b => cases b <;> simp

/-- Internal generator transitions preserve the flag. -/
theorem genStep_flag_inl {st st' : GenSt α}
    (h : genStep server st = .inl st') : st'.flag = st.flag := by
  cases hctl : st.control with
  | finished =>
    simp only [genStep, hctl] at h
    exact Sum.noConfusion h
  | start =>
    simp only [genStep, hctl] at h
    injection h with h2
    rw [← h2]
  | loopTop =>
    simp only [genStep, hctl] at h
    split at h
    · exact Sum.noConfusion h
    · split at h
      · rename_i st3 hpe
        injection h with h2
        rw [← h2, page_end_flag_inl hpe]
        exact set_params_flag st
      · exact Sum.noConfusion h
  | afterYield rest res =>
    simp only [genStep, hctl] at h
    split at h
    · split at h
      · exact Sum.noConfusion h
      · split at h
        · exact Sum.noConfusion h
        · split at h
          · rename_i st3 hpe
            injection h with h2
            rw [← h2, page_end_flag_inl hpe]
          · exact Sum.noConfusion h
    · split at h
      · exact Sum.noConfusion h
      · split at h
        · rename_i st3 hpe
          injection h with h2
          rw [← h2, page_end_flag_inl hpe]
        · exact Sum.noConfusion h

/-- Yielding generator steps preserve the flag. -/
theorem genStep_flag_yield {st st2 : GenSt α} {x : α}
    (h : genStep server st = .inr (.yielded st2 x)) : st2.flag = st.flag := by
  cases hctl : st.control with
  | finished =>
    simp only [genStep, hctl] at h
    injection h with h2
    exact ResumeOut.noConfusion h2
  | start =>
    simp only [genStep, hctl] at h
    exact Sum.noConfusion h
  | loopTop =>
    simp only [genStep, hctl] at h
    split at h
    · injection h with h2
      obtain ⟨h3, h4⟩ := ResumeOut.yielded.inj h2
      rw [← h3]
      exact set_params_flag st
    · split at h
      · exact Sum.noConfusion h
      · rename_i o hpe
        injection h with h2
        rw [h2] at hpe
        exact absurd hpe page_end_not_yield
  | afterYield rest res =>
    simp only [genStep, hctl] at h
    split at h
    · split at h
      · injection h with h2
        exact ResumeOut.noConfusion h2
      · split at h
        · injection h with h2
          obtain ⟨h3, h4⟩ := ResumeOut.yielded.inj h2
          rw [← h3]
        · split at h
          · exact Sum.noConfusion h
          · rename_i o hpe
            injection h with h2
            rw [h2] at hpe
            exact absurd hpe page_end_not_yield
    · split at h
      · injection h with h2
        obtain ⟨h3, h4⟩ := ResumeOut.yielded.inj h2
        rw [← h3]
      · split at h
        · exact Sum.noConfusion h
        · rename_i o hpe
          injection h with h2
          rw [h2] at hpe
          exact absurd hpe page_end_not_yield

/-- Walking out the remainder of a page whose last record exactly fills
the num_results budget: every remaining record is yielded, then the
post-yield bookkeeping of the final record trips the early return,
setting the flag and ending the generator with no further fetch. -/
theorem drain_afterYield_stop (sty mrc : Int) (n : Int) (lim off : Int)
    (m : Option String) (pp : PagParams) (C : Nat) (res : Page α) :
    ∀ (rest : List α) (F : Nat) (fuel : Nat),
      ((F + rest.length + 1 : Nat) : Int) = n →
      rest.length + 1 ≤ fuel →
      genDrain server fuel
        ⟨sty, mrc, some n, lim, off, m, F, false, pp, C, .afterYield rest res⟩ =
        some (rest,
          ⟨sty, mrc, some n, lim, off, m, F + rest.length + 1, true, pp, C, .finished⟩) := by
  intro rest
  induction rest with
  | nil =>
    intro F fuel hn hfuel
    obtain ⟨f, rfl⟩ : ∃ f, fuel = f + 1 := ⟨fuel - 1, by omega⟩
    have hstop : genStep server
        (⟨sty, mrc, some n, lim, off, m, F, false, pp, C, .afterYield [] res⟩ : GenSt α) =
        .inr (.stopped ⟨sty, mrc, some n, lim, off, m, F + 1, true, pp, C, .finished⟩) := by
      simp only [genStep]
      rw [if_pos (by simp only [List.length_nil, Nat.add_zero] at hn; omega)]
    have := genDrain_of_stop server hstop f
    simpa using this
  | cons x rest2 ih =>
    intro F fuel hn hfuel
    simp only [List.length_cons] at hn hfuel
    obtain ⟨f, rfl⟩ : ∃ f, fuel = f + 1 := ⟨fuel - 1, by omega⟩
    have hyield : genStep server
        (⟨sty, mrc, some n, lim, off, m, F, false, pp, C, .afterYield (x :: rest2) res⟩ : GenSt α) =
        .inr (.yielded
          ⟨sty, mrc, some n, lim, off, m, F + 1, false, pp, C, .afterYield rest2 res⟩ x) := by
      simp only [genStep]
      rw [if_neg (by push_cast at hn ⊢; omega)]
    have hrec := ih (F + 1) f (by push_cast at hn ⊢; omega) (by omega)
    have := genDrain_of_yield server hyield hrec
    have harith : F + 1 + rest2.length + 1 = F + (rest2.length + 1) + 1 := by omega
    rw [harith] at this
    exact this

/-- Walking out a page that does not reach the budget: every remaining
record is yielded and the generator arrives at the end-of-page state. -/
theorem drain_afterYield_walk (sty mrc : Int) (nr : Option Int) (lim off : Int)
    (m : Option String) (pp : PagParams) (C : Nat) (res : Page α) :
    ∀ (rest : List α) (F : Nat) (fuel : Nat) (r : List α × GenSt α),
      (match nr with
       | none => True
       | some n => ((F + rest.length + 1 : Nat) : Int) < n) →
      genDrain server fuel
        ⟨sty, mrc, nr, lim, off, m, F + rest.length, false, pp, C, .afterYield [] res⟩ =
        some r →
      genDrain server (fuel + rest.length)
        ⟨sty, mrc, nr, lim, off, m, F, false, pp, C, .afterYield rest res⟩ =
        some (rest ++ r.1, r.2) := by
  intro rest
  induction rest with
  | nil =>
    intro F fuel r hns hd
    simp only [List.length_nil, Nat.add_zero] at hd ⊢
    simpa using hd
  | cons x rest2 ih =>
    intro F fuel r hns hd
    simp only [List.length_cons] at hns hd ⊢
    have hyield : genStep server
        (⟨sty, mrc, nr, lim, off, m, F, false, pp, C, .afterYield (x :: rest2) res⟩ : GenSt α) =
        .inr (.yielded
          ⟨sty, mrc, nr, lim, off, m, F + 1, false, pp, C, .afterYield rest2 res⟩ x) := by
      cases nr with
      | none => simp [genStep]
      | some n =>
        simp only at hns
        simp only [genStep]
        rw [if_neg (by push_cast at hns ⊢; omega)]
    have harith : F + (rest2.length + 1) = F + 1 + rest2.length := by omega
    rw [harith] at hd
    have hrec := ih (F + 1) fuel r ?_ hd
    · have := genDrain_of_yield server hyield hrec
      have harith2 : fuel + rest2.length + 1 = fuel + (rest2.length + 1) := by omega
      rw [harith2] at this
      simpa using this
    · cases nr with
      | none => trivial
      | some n =>
        simp only at hns ⊢
        push_cast at hns ⊢
        omega

/-- End of page, generator loops on to the next fetch. -/
theorem drain_afterYield_end (sty mrc : Int) (nr : Option Int) (lim off : Int)
    (m : Option String) (F : Nat) (pp : PagParams) (C : Nat) (res : Page α)
    (st3 : GenSt α) (fuel : Nat) (r : List α × GenSt α)
    (hns : match nr with
           | none => True
           | some n => ((F + 1 : Nat) : Int) < n)
    (hpe : page_end
        (⟨sty, mrc, nr, lim, off, m, F + 1, false, pp, C, .afterYield [] res⟩ : GenSt α) res =
      .continueLoop st3)
    (hd : genDrain server fuel st3 = some r) :
    genDrain server (fuel + 1)
      ⟨sty, mrc, nr, lim, off, m, F, false, pp, C, .afterYield [] res⟩ = some r := by
  refine genDrain_of_inl server ?_ hd
  cases nr with
  | none =>
    simp only [genStep]
    rw [hpe]
  | some n =>
    simp only at hns
    simp only [genStep]
    rw [if_neg (by push_cast at hns ⊢; omega), hpe]

/-- End of page, termination condition fires and the generator ends
without the flag. -/
theorem drain_afterYield_end_stop (sty mrc : Int) (nr : Option Int) (lim off : Int)
    (m : Option String) (F : Nat) (pp : PagParams) (C : Nat) (res : Page α)
    (st4 : GenSt α) (fuel : Nat)
    (hns : match nr with
           | none => True
           | some n => ((F + 1 : Nat) : Int) < n)
    (hpe : page_end
        (⟨sty, mrc, nr, lim, off, m, F + 1, false, pp, C, .afterYield [] res⟩ : GenSt α) res =
      .out (.stopped st4)) :
    genDrain server (fuel + 1)
      ⟨sty, mrc, nr, lim, off, m, F, false, pp, C, .afterYield [] res⟩ = some ([], st4) := by
  refine genDrain_of_stop server ?_ fuel
  cases nr with
  | none =>
    simp only [genStep]
    rw [hpe]
  | some n =>
    simp only at hns
    simp only [genStep]
    rw [if_neg (by push_cast at hns ⊢; omega), hpe]

/-- For the two offset paging styles, the end-of-page transition advances
the offset by max_results_per_call and continues exactly when the
style-specific condition holds; the has_next_page flag of the page and
the offset-vs-total comparison must agree on the value b at call sites. -/
theorem page_end_offset_eval (sty : Int)
    (hsty : sty = PAGING_STYLE_HAS_NEXT ∨ sty = PAGING_STYLE_TOTAL)
    (mrc : Int) (nr : Option Int) (lim off : Int) (m : Option String) (F : Nat)
    (fl : Bool) (pp : PagParams) (C : Nat) (ctl : GenControl α) (res : Page α)
    (b : Bool) (hhn : res.has_next_page = b)
    (htot : decide (off + mrc < res.total) = b) :
    page_end (⟨sty, mrc, nr, lim, off, m, F, fl, pp, C, ctl⟩ : GenSt α) res =
      if b then
        .continueLoop ⟨sty, mrc, nr, lim, off + mrc, m, F, fl, pp, C, .loopTop⟩
      else
        .out (.stopped ⟨sty, mrc, nr, lim, off + mrc, m, F, fl, pp, C, .finished⟩) := by
  unfold page_end check_has_next_page
  dsimp only
  rcases hsty with rfl | rfl
  · rw [if_neg (by simp [PAGING_STYLE_HAS_NEXT, PAGING_STYLE_LAST_KEY]),
      if_neg (by simp [PAGING_STYLE_HAS_NEXT, PAGING_STYLE_MARKER]),
      if_pos rfl, hhn]
    cases b <;> rfl
  · rw [if_neg (by simp [PAGING_STYLE_TOTAL, PAGING_STYLE_LAST_KEY]),
      if_neg (by simp [PAGING_STYLE_TOTAL, PAGING_STYLE_MARKER]),
      if_neg (by simp [PAGING_STYLE_TOTAL, PAGING_STYLE_HAS_NEXT]),
      if_pos rfl, htot]
    cases b <;> rfl

/-- The loop invariant run for a bounded request that the underlying
result set can fill: from the top of the while loop with k full pages
already delivered (offset and fetched count both k*P, limit P), the
generator yields exactly the next N - k*P records in ceil((N - k*P)/P)
further fetches and ends with the flag set, never fetching a page it
then discards. -/
theorem drain_budget_loop (recs : List α) (sty : Int)
    (hsty : sty = PAGING_STYLE_HAS_NEXT ∨ sty = PAGING_STYLE_TOTAL)
    (N P : Nat) (hP : 0 < P) (hPN : P ≤ N) (hlen : N ≤ recs.length) :
    ∀ (q k C : Nat) (pp : PagParams) (m : Option String) (fuel : Nat),
      N - k * P = q → k * P < N → 2 * q + 1 ≤ fuel →
      ∃ stF,
        genDrain (idealServer recs) fuel
          ⟨sty, (P : Int), some (N : Int), (P : Int), ((k * P : Nat) : Int), m,
            k * P, false, pp, C, .loopTop⟩ =
          some ((recs.drop (k * P)).take (N - k * P), stF) ∧
        stF.calls = C + (N - k * P + P - 1) / P ∧ stF.flag = true := by
  intro q
  induction q using Nat.strong_induction_on with
  | _ q ih =>
    intro k C pp m fuel hq hkN hfuel
    have hk1 : (k + 1) * P = k * P + P := by ring
    by_cases hlast : N ≤ k * P + P
    · -- final page: the requested records exactly fill the budget and the
      -- early return fires at the last record of the page
      set l := N - k * P with hl
      have hl1 : 1 ≤ l := by omega
      have hlP : l ≤ P := by omega
      obtain ⟨L, hLto, hsp⟩ : ∃ L : Int, L.toNat = l ∧
          set_params_for_next_call
            (⟨sty, (P : Int), some (N : Int), (P : Int), ((k * P : Nat) : Int), m,
              k * P, false, pp, C, .loopTop⟩ : GenSt α) =
          ⟨sty, (P : Int), some (N : Int), L, ((k * P : Nat) : Int), m, k * P, false,
            ⟨some L, some ((k * P : Nat) : Int), pp.marker, pp.last_key⟩, C,
            .loopTop⟩ := by
        by_cases hsh : N < k * P + P
        · refine ⟨(N : Int) - ((k * P : Nat) : Int), by omega, ?_⟩
          unfold set_params_for_next_call
          dsimp only
          rw [if_pos (by push_cast; omega)]
          rcases hsty with rfl | rfl <;>
            rw [if_neg (by simp [PAGING_STYLE_MARKER, PAGING_STYLE_LAST_KEY,
                  PAGING_STYLE_HAS_NEXT, PAGING_STYLE_TOTAL]),
                if_neg (by simp [PAGING_STYLE_MARKER, PAGING_STYLE_LAST_KEY,
                  PAGING_STYLE_HAS_NEXT, PAGING_STYLE_TOTAL])]
        · refine ⟨(P : Int), by omega, ?_⟩
          unfold set_params_for_next_call
          dsimp only
          rw [if_neg (by push_cast; omega)]
          rcases hsty with rfl | rfl <;>
            rw [if_neg (by simp [PAGING_STYLE_MARKER, PAGING_STYLE_LAST_KEY,
                  PAGING_STYLE_HAS_NEXT, PAGING_STYLE_TOTAL]),
                if_neg (by simp [PAGING_STYLE_MARKER, PAGING_STYLE_LAST_KEY,
                  PAGING_STYLE_HAS_NEXT, PAGING_STYLE_TOTAL])]
      have hpage : idealServer recs
          (⟨some L, some ((k * P : Nat) : Int), pp.marker, pp.last_key⟩ : PagParams) =
          ⟨(recs.drop (k * P)).take l, decide (k * P + l < recs.length),
            (recs.length : Int), none, none⟩ := by
        unfold idealServer
        dsimp only
        simp only [Option.getD_some]
        simp only [hLto, show (((k * P : Nat) : Int)).toNat = k * P by omega]
      have hplen : ((recs.drop (k * P)).take l).length = l := by
        rw [List.length_take, List.length_drop]
        omega
      obtain ⟨x, rest, hxr⟩ : ∃ x rest, (recs.drop (k * P)).take l = x :: rest := by
        cases hc : (recs.drop (k * P)).take l with
        | nil => rw [hc] at hplen; simp at hplen; omega
        | cons a b => exact ⟨a, b, rfl⟩
      have hrlen : rest.length = l - 1 := by
        rw [hxr] at hplen
        simp at hplen
        omega
      have hstep : genStep (idealServer recs)
          (⟨sty, (P : Int), some (N : Int), (P : Int), ((k * P : Nat) : Int), m,
            k * P, false, pp, C, .loopTop⟩ : GenSt α) =
          .inr (.yielded
            ⟨sty, (P : Int), some (N : Int), L, ((k * P : Nat) : Int), m, k * P,
              false,
              ⟨some L, some ((k * P : Nat) : Int), pp.marker, pp.last_key⟩, C + 1,
              .afterYield rest
                ⟨(recs.drop (k * P)).take l, decide (k * P + l < recs.length),
                  (recs.length : Int), none, none⟩⟩ x) := by
        simp only [genStep, hsp, hpage, hxr]
      have hwalk := drain_afterYield_stop (idealServer recs) sty (P : Int) (N : Int)
        L ((k * P : Nat) : Int) m
        ⟨some L, some ((k * P : Nat) : Int), pp.marker, pp.last_key⟩ (C + 1)
        ⟨(recs.drop (k * P)).take l, decide (k * P + l < recs.length),
          (recs.length : Int), none, none⟩
        rest (k * P) (fuel - 1) (by push_cast; omega) (by omega)
      have hfin := genDrain_of_yield (idealServer recs) hstep hwalk
      rw [show fuel - 1 + 1 = fuel by omega] at hfin
      rw [← hxr] at hfin
      refine ⟨⟨sty, (P : Int), some (N : Int), L, ((k * P : Nat) : Int), m,
          k * P + rest.length + 1, true,
          ⟨some L, some ((k * P : Nat) : Int), pp.marker, pp.last_key⟩, C + 1,
          .finished⟩, hfin, ?_, rfl⟩
      show C + 1 = C + (l + P - 1) / P
      have : (l + P - 1) / P = 1 := by
        apply Nat.div_eq_of_lt_le <;> omega
      omega
    · -- full page, more to come: the limit stays P, every record of the
      -- page is delivered and the loop advances to offset (k+1)*P
      have hlt : k * P + P < N := by omega
      have hsp : set_params_for_next_call
          (⟨sty, (P : Int), some (N : Int), (P : Int), ((k * P : Nat) : Int), m,
            k * P, false, pp, C, .loopTop⟩ : GenSt α) =
          ⟨sty, (P : Int), some (N : Int), (P : Int), ((k * P : Nat) : Int), m,
            k * P, false,
            ⟨some (P : Int), some ((k * P : Nat) : Int), pp.marker, pp.last_key⟩,
            C, .loopTop⟩ := by
        unfold set_params_for_next_call
        dsimp only
        rw [if_neg (by push_cast; omega)]
        rcases hsty with rfl | rfl <;>
          rw [if_neg (by simp [PAGING_STYLE_MARKER, PAGING_STYLE_LAST_KEY,
                PAGING_STYLE_HAS_NEXT, PAGING_STYLE_TOTAL]),
              if_neg (by simp [PAGING_STYLE_MARKER, PAGING_STYLE_LAST_KEY,
                PAGING_STYLE_HAS_NEXT, PAGING_STYLE_TOTAL])]
      have hpage : idealServer recs
          (⟨some (P : Int), some ((k * P : Nat) : Int),
            pp.marker, pp.last_key⟩ : PagParams) =
          ⟨(recs.drop (k * P)).take P, decide (k * P + P < recs.length),
            (recs.length : Int), none, none⟩ := by
        unfold idealServer
        dsimp only
        simp only [Option.getD_some]
        simp only [show ((P : Int)).toNat = P by omega,
          show (((k * P : Nat) : Int)).toNat = k * P by omega]
      have hplen : ((recs.drop (k * P)).take P).length = P := by
        rw [List.length_take, List.length_drop]
        omega
      obtain ⟨x, rest, hxr⟩ : ∃ x rest, (recs.drop (k * P)).take P = x :: rest := by
        cases hc : (recs.drop (k * P)).take P with
        | nil => rw [hc] at hplen; simp at hplen; omega
        | cons a b => exact ⟨a, b, rfl⟩
      have hrlen : rest.length = P - 1 := by
        rw [hxr] at hplen
        simp at hplen
        omega
      have hstep : genStep (idealServer recs)
          (⟨sty, (P : Int), some (N : Int), (P : Int), ((k * P : Nat) : Int), m,
            k * P, false, pp, C, .loopTop⟩ : GenSt α) =
          .inr (.yielded
            ⟨sty, (P : Int), some (N : Int), (P : Int), ((k * P : Nat) : Int), m,
              k * P, false,
              ⟨some (P : Int), some ((k * P : Nat) : Int), pp.marker, pp.last_key⟩,
              C + 1,
              .afterYield rest
                ⟨(recs.drop (k * P)).take P, decide (k * P + P < recs.length),
                  (recs.length : Int), none, none⟩⟩ x) := by
        simp only [genStep, hsp, hpage, hxr]
      -- the recursive run from the top of the next loop iteration
      have harg1 : q - P < q := by omega
      have harg2 : N - (k + 1) * P = q - P := by rw [hk1]; omega
      have harg3 : (k + 1) * P < N := by rw [hk1]; omega
      obtain ⟨stF, hIH, hIHcalls, hIHflag⟩ := ih (q - P) harg1 (k + 1) (C + 1)
        ⟨some (P : Int), some ((k * P : Nat) : Int), pp.marker, pp.last_key⟩ m
        (2 * (q - P) + 1) harg2 harg3 (Nat.le_refl _)
      -- rewrite the k+1 entry state into the form page_end produces
      have hoffcast : (((k + 1) * P : Nat) : Int) = ((k * P : Nat) : Int) + (P : Int) := by
        push_cast
        ring
      rw [hoffcast, hk1] at hIH
      -- the end-of-page transition into that state
      have hpe := page_end_offset_eval sty hsty (P : Int)
        (some (N : Int)) (P : Int) ((k * P : Nat) : Int) m (k * P + P) false
        ⟨some (P : Int), some ((k * P : Nat) : Int), pp.marker, pp.last_key⟩ (C + 1)
        (.afterYield ([] : List α)
          ⟨(recs.drop (k * P)).take P, decide (k * P + P < recs.length),
            (recs.length : Int), none, none⟩)
        ⟨(recs.drop (k * P)).take P, decide (k * P + P < recs.length),
          (recs.length : Int), none, none⟩ true
        (by simp only; rw [decide_eq_true_eq]; omega)
        (by rw [decide_eq_true_eq]; push_cast; omega)
      rw [if_pos rfl] at hpe
      have hend := drain_afterYield_end (idealServer recs) sty (P : Int)
        (some (N : Int)) (P : Int) ((k * P : Nat) : Int) m (k * P + P - 1)
        ⟨some (P : Int), some ((k * P : Nat) : Int), pp.marker, pp.last_key⟩ (C + 1)
        ⟨(recs.drop (k * P)).take P, decide (k * P + P < recs.length),
          (recs.length : Int), none, none⟩
        _ (2 * (q - P) + 1) _
        (by simp only; push_cast; omega)
        (by rw [show k * P + P - 1 + 1 = k * P + P by omega]; exact hpe)
        hIH
      have hwalk := drain_afterYield_walk (idealServer recs) sty (P : Int)
        (some (N : Int)) (P : Int) ((k * P : Nat) : Int) m
        ⟨some (P : Int), some ((k * P : Nat) : Int), pp.marker, pp.last_key⟩ (C + 1)
        ⟨(recs.drop (k * P)).take P, decide (k * P + P < recs.length),
          (recs.length : Int), none, none⟩
        rest (k * P) (2 * (q - P) + 1 + 1) _
        (by push_cast; omega)
        (by rw [show k * P + rest.length = k * P + P - 1 by omega]; exact hend)
      have hfin := genDrain_of_yield (idealServer recs) hstep hwalk
      refine ⟨stF, ?_, ?_, hIHflag⟩
      · have hfuel2 : 2 * (q - P) + 1 + 1 + rest.length + 1 ≤ fuel := by omega
        have hmono := genDrain_mono_le (idealServer recs) hfuel2 _ _ hfin
        rw [hmono]
        congr 2
        rw [← List.cons_append, ← hxr]
        show (recs.drop (k * P)).take P ++ ((recs.drop (k * P + P)).take (N - (k * P + P))) =
          (recs.drop (k * P)).take (N - k * P)
        rw [show recs.drop (k * P + P) = (recs.drop (k * P)).drop P by
          rw [List.drop_drop]]
        rw [← List.take_add]
        congr 1
        omega
      · rw [hIHcalls, hk1]
        have hq2 : N - (k * P + P) = q - P := by omega
        rw [hq2, hq]
        have hdiv : (q - P + P - 1) / P + 1 = (q + P - 1) / P := by
          rw [show q - P + P - 1 = q - 1 by omega]
          rw [show q + P - 1 = (q - 1) + P by omega]
          rw [Nat.add_div_right _ hP]
        omega

/-- The generator prologue: limit is initialized and the while loop is
entered. -/
theorem drain_start {st : GenSt α} (hctl : st.control = .start) {fuel : Nat}
    {r : List α × GenSt α}
    (hd : genDrain server fuel
      { st with
        limit := match st.num_results with
                 | some n => min n st.max_results_per_call
                 | none => st.max_results_per_call,
        control := .loopTop } = some r) :
    genDrain server (fuel + 1) st = some r := by
  refine genDrain_of_inl server ?_ hd
  simp only [genStep, hctl]

/-- The loop run for an unbounded request: from the top of the while loop
with offset k*P, the generator yields every remaining record and stops
when the style-specific termination condition fires, never touching the
flag. -/
theorem drain_unbounded_loop (recs : List α) (sty : Int)
    (hsty : sty = PAGING_STYLE_HAS_NEXT ∨ sty = PAGING_STYLE_TOTAL)
    (P : Nat) (hP : 0 < P) :
    ∀ (q k F C : Nat) (pp : PagParams) (m : Option String) (fuel : Nat),
      recs.length - k * P = q → k * P < recs.length → 2 * q + 1 ≤ fuel →
      ∃ stF,
        genDrain (idealServer recs) fuel
          ⟨sty, (P : Int), none, (P : Int), ((k * P : Nat) : Int), m,
            F, false, pp, C, .loopTop⟩ =
          some (recs.drop (k * P), stF) ∧ stF.flag = false := by
  intro q
  induction q using Nat.strong_induction_on with
  | _ q ih =>
    intro k F C pp m fuel hq hkN hfuel
    have hk1 : (k + 1) * P = k * P + P := by ring
    have hsp : set_params_for_next_call
        (⟨sty, (P : Int), none, (P : Int), ((k * P : Nat) : Int), m,
          F, false, pp, C, .loopTop⟩ : GenSt α) =
        ⟨sty, (P : Int), none, (P : Int), ((k * P : Nat) : Int), m,
          F, false,
          ⟨some (P : Int), some ((k * P : Nat) : Int), pp.marker, pp.last_key⟩,
          C, .loopTop⟩ := by
      unfold set_params_for_next_call
      dsimp only
      rcases hsty with rfl | rfl <;>
        rw [if_neg (by simp [PAGING_STYLE_MARKER, PAGING_STYLE_LAST_KEY,
              PAGING_STYLE_HAS_NEXT, PAGING_STYLE_TOTAL]),
            if_neg (by simp [PAGING_STYLE_MARKER, PAGING_STYLE_LAST_KEY,
              PAGING_STYLE_HAS_NEXT, PAGING_STYLE_TOTAL])]
    have hpage : idealServer recs
        (⟨some (P : Int), some ((k * P : Nat) : Int),
          pp.marker, pp.last_key⟩ : PagParams) =
        ⟨(recs.drop (k * P)).take P, decide (k * P + P < recs.length),
          (recs.length : Int), none, none⟩ := by
      unfold idealServer
      dsimp only
      simp only [Option.getD_some]
      simp only [show ((P : Int)).toNat = P by omega,
        show (((k * P : Nat) : Int)).toNat = k * P by omega]
    have hplen : ((recs.drop (k * P)).take P).length = min P (recs.length - k * P) := by
      rw [List.length_take, List.length_drop]
    obtain ⟨x, rest, hxr⟩ : ∃ x rest, (recs.drop (k * P)).take P = x :: rest := by
      cases hc : (recs.drop (k * P)).take P with
      | nil => rw [hc] at hplen; simp at hplen; omega
      | cons a b => exact ⟨a, b, rfl⟩
    have hrlen : rest.length = min P (recs.length - k * P) - 1 := by
      rw [hxr] at hplen
      simp at hplen
      omega
    have hstep : genStep (idealServer recs)
        (⟨sty, (P : Int), none, (P : Int), ((k * P : Nat) : Int), m,
          F, false, pp, C, .loopTop⟩ : GenSt α) =
        .inr (.yielded
          ⟨sty, (P : Int), none, (P : Int), ((k * P : Nat) : Int), m,
            F, false,
            ⟨some (P : Int), some ((k * P : Nat) : Int), pp.marker, pp.last_key⟩,
            C + 1,
            .afterYield rest
              ⟨(recs.drop (k * P)).take P, decide (k * P + P < recs.length),
                (recs.length : Int), none, none⟩⟩ x) := by
      simp only [genStep, hsp, hpage, hxr]
    by_cases hterm : recs.length ≤ k * P + P
    · -- last page: its records are the whole remainder and the
      -- termination condition fires at its end
      have hall : (recs.drop (k * P)).take P = recs.drop (k * P) := by
        apply List.take_of_length_le
        rw [List.length_drop]
        omega
      have hpe := page_end_offset_eval sty hsty (P : Int) none (P : Int)
        ((k * P : Nat) : Int) m (F + rest.length + 1) false
        ⟨some (P : Int), some ((k * P : Nat) : Int), pp.marker, pp.last_key⟩ (C + 1)
        (.afterYield ([] : List α)
          ⟨(recs.drop (k * P)).take P, decide (k * P + P < recs.length),
            (recs.length : Int), none, none⟩)
        ⟨(recs.drop (k * P)).take P, decide (k * P + P < recs.length),
          (recs.length : Int), none, none⟩ false
        (by simp only; rw [decide_eq_false_iff_not]; omega)
        (by rw [decide_eq_false_iff_not]; push_cast; omega)
      rw [if_neg (by simp)] at hpe
      have hend := drain_afterYield_end_stop (idealServer recs) sty (P : Int)
        none (P : Int) ((k * P : Nat) : Int) m (F + rest.length)
        ⟨some (P : Int), some ((k * P : Nat) : Int), pp.marker, pp.last_key⟩ (C + 1)
        ⟨(recs.drop (k * P)).take P, decide (k * P + P < recs.length),
          (recs.length : Int), none, none⟩
        _ (fuel - rest.length - 2) trivial
        (by rw [show F + rest.length + 1 = F + rest.length + 1 from rfl]; exact hpe)
      have hwalk := drain_afterYield_walk (idealServer recs) sty (P : Int)
        none (P : Int) ((k * P : Nat) : Int) m
        ⟨some (P : Int), some ((k * P : Nat) : Int), pp.marker, pp.last_key⟩ (C + 1)
        ⟨(recs.drop (k * P)).take P, decide (k * P + P < recs.length),
          (recs.length : Int), none, none⟩
        rest F (fuel - rest.length - 2 + 1) _ trivial hend
      have hfin := genDrain_of_yield (idealServer recs) hstep hwalk
      refine ⟨⟨sty, (P : Int), none, (P : Int), ((k * P : Nat) : Int) + (P : Int), m,
          F + rest.length + 1, false,
          ⟨some (P : Int), some ((k * P : Nat) : Int), pp.marker, pp.last_key⟩,
          C + 1, .finished⟩, ?_, rfl⟩
      have hfuelrw : fuel - rest.length - 2 + 1 + rest.length + 1 = fuel := by omega
      rw [hfuelrw] at hfin
      rw [hfin]
      congr 2
      rw [← List.cons_append, ← hxr, hall]
      simp
    · -- full page, more remain: recurse at offset (k+1)*P
      have hlt : k * P + P < recs.length := by omega
      have hrlenP : rest.length = P - 1 := by omega
      obtain ⟨stF, hIH, hIHflag⟩ := ih (q - P) (by omega) (k + 1) (F + P) (C + 1)
        ⟨some (P : Int), some ((k * P : Nat) : Int), pp.marker, pp.last_key⟩ m
        (2 * (q - P) + 1) (by rw [hk1]; omega) (by rw [hk1]; omega) (Nat.le_refl _)
      have hoffcast : (((k + 1) * P : Nat) : Int) = ((k * P : Nat) : Int) + (P : Int) := by
        push_cast
        ring
      rw [hoffcast, hk1] at hIH
      have hpe := page_end_offset_eval sty hsty (P : Int) none (P : Int)
        ((k * P : Nat) : Int) m (F + P) false
        ⟨some (P : Int), some ((k * P : Nat) : Int), pp.marker, pp.last_key⟩ (C + 1)
        (.afterYield ([] : List α)
          ⟨(recs.drop (k * P)).take P, decide (k * P + P < recs.length),
            (recs.length : Int), none, none⟩)
        ⟨(recs.drop (k * P)).take P, decide (k * P + P < recs.length),
          (recs.length : Int), none, none⟩ true
        (by simp only; rw [decide_eq_true_eq]; omega)
        (by rw [decide_eq_true_eq]; push_cast; omega)
      rw [if_pos rfl] at hpe
      have hIH2 : genDrain (idealServer recs) (2 * (q - P) + 1)
          ⟨sty, (P : Int), none, (P : Int), ((k * P : Nat) : Int) + (P : Int), m,
            F + P, false,
            ⟨some (P : Int), some ((k * P : Nat) : Int), pp.marker, pp.last_key⟩,
            C + 1, .loopTop⟩ = some (recs.drop (k * P + P), stF) := hIH
      have hend := drain_afterYield_end (idealServer recs) sty (P : Int)
        none (P : Int) ((k * P : Nat) : Int) m (F + P - 1)
        ⟨some (P : Int), some ((k * P : Nat) : Int), pp.marker, pp.last_key⟩ (C + 1)
        ⟨(recs.drop (k * P)).take P, decide (k * P + P < recs.length),
          (recs.length : Int), none, none⟩
        _ (2 * (q - P) + 1) _ trivial
        (by rw [show F + P - 1 + 1 = F + P by omega]; exact hpe)
        hIH2
      have hwalk := drain_afterYield_walk (idealServer recs) sty (P : Int)
        none (P : Int) ((k * P : Nat) : Int) m
        ⟨some (P : Int), some ((k * P : Nat) : Int), pp.marker, pp.last_key⟩ (C + 1)
        ⟨(recs.drop (k * P)).take P, decide (k * P + P < recs.length),
          (recs.length : Int), none, none⟩
        rest F (2 * (q - P) + 1 + 1) _ trivial
        (by rw [show F + rest.length = F + P - 1 by omega]; exact hend)
      have hfin := genDrain_of_yield (idealServer recs) hstep hwalk
      refine ⟨stF, ?_, hIHflag⟩
      have hfuel2 : 2 * (q - P) + 1 + 1 + rest.length + 1 ≤ fuel := by omega
      have hmono := genDrain_mono_le (idealServer recs) hfuel2 _ _ hfin
      rw [hmono]
      congr 2
      rw [← List.cons_append, ← hxr]
      show (recs.drop (k * P)).take P ++ recs.drop (k * P + P) = recs.drop (k * P)
      rw [show recs.drop (k * P + P) = (recs.drop (k * P)).drop P by
        rw [List.drop_drop]]
      exact List.take_append_drop P (recs.drop (k * P))


/-- The loop run for a bounded request that the underlying result set
cannot fill: the generator yields every remaining record, the budget is
never reached, and the run ends through the termination condition with
the flag still unset. -/
theorem drain_starve_loop (recs : List α) (sty : Int)
    (hsty : sty = PAGING_STYLE_HAS_NEXT ∨ sty = PAGING_STYLE_TOTAL)
    (N P : Nat) (hP : 0 < P) (hPN : P ≤ N) (hlenN : recs.length < N) :
    ∀ (q k C : Nat) (pp : PagParams) (m : Option String) (fuel : Nat),
      recs.length - k * P = q → k * P < recs.length → 2 * q + 1 ≤ fuel →
      ∃ stF,
        genDrain (idealServer recs) fuel
          ⟨sty, (P : Int), some (N : Int), (P : Int), ((k * P : Nat) : Int), m,
            k * P, false, pp, C, .loopTop⟩ =
          some (recs.drop (k * P), stF) ∧ stF.flag = false := by
  intro q
  induction q using Nat.strong_induction_on with
  | _ q ih =>
    intro k C pp m fuel hq hkN hfuel
    have hk1 : (k + 1) * P = k * P + P := by ring
    by_cases hterm : recs.length ≤ k * P + P
    · -- last page: remainder delivered in full, then the termination
      -- condition fires with the budget still unreached
      obtain ⟨L, hLge, hLl, hsp⟩ : ∃ L : Int,
          recs.length - k * P ≤ L.toNat ∧ ((k * P + L.toNat : Nat) : Int) = ((k * P : Nat) : Int) + L ∧
          set_params_for_next_call
            (⟨sty, (P : Int), some (N : Int), (P : Int), ((k * P : Nat) : Int), m,
              k * P, false, pp, C, .loopTop⟩ : GenSt α) =
          ⟨sty, (P : Int), some (N : Int), L, ((k * P : Nat) : Int), m, k * P, false,
            ⟨some L, some ((k * P : Nat) : Int), pp.marker, pp.last_key⟩, C,
            .loopTop⟩ := by
        by_cases hsh : N < k * P + P
        · refine ⟨(N : Int) - ((k * P : Nat) : Int), by omega, by push_cast; omega, ?_⟩
          unfold set_params_for_next_call
          dsimp only
          rw [if_pos (by push_cast; omega)]
          rcases hsty with rfl | rfl <;>
            rw [if_neg (by simp [PAGING_STYLE_MARKER, PAGING_STYLE_LAST_KEY,
                  PAGING_STYLE_HAS_NEXT, PAGING_STYLE_TOTAL]),
                if_neg (by simp [PAGING_STYLE_MARKER, PAGING_STYLE_LAST_KEY,
                  PAGING_STYLE_HAS_NEXT, PAGING_STYLE_TOTAL])]
        · refine ⟨(P : Int), by omega, by push_cast; omega, ?_⟩
          unfold set_params_for_next_call
          dsimp only
          rw [if_neg (by push_cast; omega)]
          rcases hsty with rfl | rfl <;>
            rw [if_neg (by simp [PAGING_STYLE_MARKER, PAGING_STYLE_LAST_KEY,
                  PAGING_STYLE_HAS_NEXT, PAGING_STYLE_TOTAL]),
                if_neg (by simp [PAGING_STYLE_MARKER, PAGING_STYLE_LAST_KEY,
                  PAGING_STYLE_HAS_NEXT, PAGING_STYLE_TOTAL])]
      have hpage : idealServer recs
          (⟨some L, some ((k * P : Nat) : Int), pp.marker, pp.last_key⟩ : PagParams) =
          ⟨(recs.drop (k * P)).take L.toNat, decide (k * P + L.toNat < recs.length),
            (recs.length : Int), none, none⟩ := by
        unfold idealServer
        dsimp only
        simp only [Option.getD_some]
        simp only [show (((k * P : Nat) : Int)).toNat = k * P by omega]
      have hall : (recs.drop (k * P)).take L.toNat = recs.drop (k * P) := by
        apply List.take_of_length_le
        rw [List.length_drop]
        omega
      have hplen : ((recs.drop (k * P)).take L.toNat).length = recs.length - k * P := by
        rw [hall, List.length_drop]
      obtain ⟨x, rest, hxr⟩ : ∃ x rest, (recs.drop (k * P)).take L.toNat = x :: rest := by
        cases hc : (recs.drop (k * P)).take L.toNat with
        | nil => rw [hc] at hplen; simp at hplen; omega
        | cons a b => exact ⟨a, b, rfl⟩
      have hrlen : rest.length = recs.length - k * P - 1 := by
        rw [hxr] at hplen
        simp at hplen
        omega
      have hstep : genStep (idealServer recs)
          (⟨sty, (P : Int), some (N : Int), (P : Int), ((k * P : Nat) : Int), m,
            k * P, false, pp, C, .loopTop⟩ : GenSt α) =
          .inr (.yielded
            ⟨sty, (P : Int), some (N : Int), L, ((k * P : Nat) : Int), m, k * P,
              false,
              ⟨some L, some ((k * P : Nat) : Int), pp.marker, pp.last_key⟩, C + 1,
              .afterYield rest
                ⟨(recs.drop (k * P)).take L.toNat,
                  decide (k * P + L.toNat < recs.length),
                  (recs.length : Int), none, none⟩⟩ x) := by
        simp only [genStep, hsp, hpage, hxr]
      have hpe := page_end_offset_eval sty hsty (P : Int) (some (N : Int)) L
        ((k * P : Nat) : Int) m (k * P + rest.length + 1) false
        ⟨some L, some ((k * P : Nat) : Int), pp.marker, pp.last_key⟩ (C + 1)
        (.afterYield ([] : List α)
          ⟨(recs.drop (k * P)).take L.toNat,
            decide (k * P + L.toNat < recs.length),
            (recs.length : Int), none, none⟩)
        ⟨(recs.drop (k * P)).take L.toNat,
          decide (k * P + L.toNat < recs.length),
          (recs.length : Int), none, none⟩ false
        (by simp only; rw [decide_eq_false_iff_not]; omega)
        (by rw [decide_eq_false_iff_not]; push_cast; omega)
      rw [if_neg (by simp)] at hpe
      have hend := drain_afterYield_end_stop (idealServer recs) sty (P : Int)
        (some (N : Int)) L ((k * P : Nat) : Int) m (k * P + rest.length)
        ⟨some L, some ((k * P : Nat) : Int), pp.marker, pp.last_key⟩ (C + 1)
        ⟨(recs.drop (k * P)).take L.toNat,
          decide (k * P + L.toNat < recs.length),
          (recs.length : Int), none, none⟩
        _ (fuel - rest.length - 2)
        (by simp only; push_cast; omega)
        (by rw [show k * P + rest.length + 1 = k * P + rest.length + 1 from rfl]; exact hpe)
      have hwalk := drain_afterYield_walk (idealServer recs) sty (P : Int)
        (some (N : Int)) L ((k * P : Nat) : Int) m
        ⟨some L, some ((k * P : Nat) : Int), pp.marker, pp.last_key⟩ (C + 1)
        ⟨(recs.drop (k * P)).take L.toNat,
          decide (k * P + L.toNat < recs.length),
          (recs.length : Int), none, none⟩
        rest (k * P) (fuel - rest.length - 2 + 1) _
        (by push_cast; omega)
        hend
      have hfin := genDrain_of_yield (idealServer recs) hstep hwalk
      refine ⟨⟨sty, (P : Int), some (N : Int), L,
          ((k * P : Nat) : Int) + (P : Int), m,
          k * P + rest.length + 1, false,
          ⟨some L, some ((k * P : Nat) : Int), pp.marker, pp.last_key⟩,
          C + 1, .finished⟩, ?_, rfl⟩
      have hfuelrw : fuel - rest.length - 2 + 1 + rest.length + 1 = fuel := by omega
      rw [hfuelrw] at hfin
      rw [hfin]
      congr 2
      rw [← List.cons_append, ← hxr, hall]
      simp
    · -- full page, more remain: recurse at offset (k+1)*P
      have hlt : k * P + P < recs.length := by omega
      have hltN : k * P + P < N := by omega
      have hsp : set_params_for_next_call
          (⟨sty, (P : Int), some (N : Int), (P : Int), ((k * P : Nat) : Int), m,
            k * P, false, pp, C, .loopTop⟩ : GenSt α) =
          ⟨sty, (P : Int), some (N : Int), (P : Int), ((k * P : Nat) : Int), m,
            k * P, false,
            ⟨some (P : Int), some ((k * P : Nat) : Int), pp.marker, pp.last_key⟩,
            C, .loopTop⟩ := by
        unfold set_params_for_next_call
        dsimp only
        rw [if_neg (by push_cast; omega)]
        rcases hsty with rfl | rfl <;>
          rw [if_neg (by simp [PAGING_STYLE_MARKER, PAGING_STYLE_LAST_KEY,
                PAGING_STYLE_HAS_NEXT, PAGING_STYLE_TOTAL]),
              if_neg (by simp [PAGING_STYLE_MARKER, PAGING_STYLE_LAST_KEY,
                PAGING_STYLE_HAS_NEXT, PAGING_STYLE_TOTAL])]
      have hpage : idealServer recs
          (⟨some (P : Int), some ((k * P : Nat) : Int),
            pp.marker, pp.last_key⟩ : PagParams) =
          ⟨(recs.drop (k * P)).take P, decide (k * P + P < recs.length),
            (recs.length : Int), none, none⟩ := by
        unfold idealServer
        dsimp only
        simp only [Option.getD_some]
        simp only [show ((P : Int)).toNat = P by omega,
          show (((k * P : Nat) : Int)).toNat = k * P by omega]
      have hplen : ((recs.drop (k * P)).take P).length = P := by
        rw [List.length_take, List.length_drop]
        omega
      obtain ⟨x, rest, hxr⟩ : ∃ x rest, (recs.drop (k * P)).take P = x :: rest := by
        cases hc : (recs.drop (k * P)).take P with
        | nil => rw [hc] at hplen; simp at hplen; omega
        | cons a b => exact ⟨a, b, rfl⟩
      have hrlen : rest.length = P - 1 := by
        rw [hxr] at hplen
        simp at hplen
        omega
      have hstep : genStep (idealServer recs)
          (⟨sty, (P : Int), some (N : Int), (P : Int), ((k * P : Nat) : Int), m,
            k * P, false, pp, C, .loopTop⟩ : GenSt α) =
          .inr (.yielded
            ⟨sty, (P : Int), some (N : Int), (P : Int), ((k * P : Nat) : Int), m,
              k * P, false,
              ⟨some (P : Int), some ((k * P : Nat) : Int), pp.marker, pp.last_key⟩,
              C + 1,
              .afterYield rest
                ⟨(recs.drop (k * P)).take P, decide (k * P + P < recs.length),
                  (recs.length : Int), none, none⟩⟩ x) := by
        simp only [genStep, hsp, hpage, hxr]
      obtain ⟨stF, hIH, hIHflag⟩ := ih (q - P) (by omega) (k + 1) (C + 1)
        ⟨some (P : Int), some ((k * P : Nat) : Int), pp.marker, pp.last_key⟩ m
        (2 * (q - P) + 1) (by rw [hk1]; omega) (by rw [hk1]; omega) (Nat.le_refl _)
      have hoffcast : (((k + 1) * P : Nat) : Int) = ((k * P : Nat) : Int) + (P : Int) := by
        push_cast
        ring
      rw [hoffcast, hk1] at hIH
      have hpe := page_end_offset_eval sty hsty (P : Int) (some (N : Int)) (P : Int)
        ((k * P : Nat) : Int) m (k * P + P) false
        ⟨some (P : Int), some ((k * P : Nat) : Int), pp.marker, pp.last_key⟩ (C + 1)
        (.afterYield ([] : List α)
          ⟨(recs.drop (k * P)).take P, decide (k * P + P < recs.length),
            (recs.length : Int), none, none⟩)
        ⟨(recs.drop (k * P)).take P, decide (k * P + P < recs.length),
          (recs.length : Int), none, none⟩ true
        (by simp only; rw [decide_eq_true_eq]; omega)
        (by rw [decide_eq_true_eq]; push_cast; omega)
      rw [if_pos rfl] at hpe
      have hend := drain_afterYield_end (idealServer recs) sty (P : Int)
        (some (N : Int)) (P : Int) ((k * P : Nat) : Int) m (k * P + P - 1)
        ⟨some (P : Int), some ((k * P : Nat) : Int), pp.marker, pp.last_key⟩ (C + 1)
        ⟨(recs.drop (k * P)).take P, decide (k * P + P < recs.length),
          (recs.length : Int), none, none⟩
        _ (2 * (q - P) + 1) _
        (by simp only; push_cast; omega)
        (by rw [show k * P + P - 1 + 1 = k * P + P by omega]; exact hpe)
        hIH
      have hwalk := drain_afterYield_walk (idealServer recs) sty (P : Int)
        (some (N : Int)) (P : Int) ((k * P : Nat) : Int) m
        ⟨some (P : Int), some ((k * P : Nat) : Int), pp.marker, pp.last_key⟩ (C + 1)
        ⟨(recs.drop (k * P)).take P, decide (k * P + P < recs.length),
          (recs.length : Int), none, none⟩
        rest (k * P) (2 * (q - P) + 1 + 1) _
        (by push_cast; omega)
        (by rw [show k * P + rest.length = k * P + P - 1 by omega]; exact hend)
      have hfin := genDrain_of_yield (idealServer recs) hstep hwalk
      refine ⟨stF, ?_, hIHflag⟩
      have hfuel2 : 2 * (q - P) + 1 + 1 + rest.length + 1 ≤ fuel := by omega
      have hmono := genDrain_mono_le (idealServer recs) hfuel2 _ _ hfin
      rw [hmono]
      congr 2
      rw [← List.cons_append, ← hxr]
      show (recs.drop (k * P)).take P ++ recs.drop (k * P + P) = recs.drop (k * P)
      rw [show recs.drop (k * P + P) = (recs.drop (k * P)).drop P by
        rw [List.drop_drop]]
      exact List.take_append_drop P (recs.drop (k * P))


/-- A fetch against an empty result set returns an empty page and the
termination condition fires at once: one call, no records, flag unset. -/
theorem drain_empty (sty : Int)
    (hsty : sty = PAGING_STYLE_HAS_NEXT ∨ sty = PAGING_STYLE_TOTAL)
    (nr : Option Int) (L mrc : Int) (m : Option String) (pp : PagParams)
    (C fuel : Nat) (hmrc : 0 ≤ mrc) (hL : 0 ≤ L)
    (hnoshrink : match nr with | some n => ¬((0 : Int) + L > n) | none => True) :
    genDrain (idealServer ([] : List α)) (fuel + 1)
      ⟨sty, mrc, nr, L, 0, m, 0, false, pp, C, .loopTop⟩ =
      some ([], ⟨sty, mrc, nr, L, 0 + mrc, m, 0, false,
        ⟨some L, some 0, pp.marker, pp.last_key⟩, C + 1, .finished⟩) := by
  have hsp : set_params_for_next_call
      (⟨sty, mrc, nr, L, 0, m, 0, false, pp, C, .loopTop⟩ : GenSt α) =
      ⟨sty, mrc, nr, L, 0, m, 0, false,
        ⟨some L, some 0, pp.marker, pp.last_key⟩, C, .loopTop⟩ := by
    unfold set_params_for_next_call
    dsimp only
    cases nr with
    | none =>
      rcases hsty with rfl | rfl <;>
        rw [if_neg (by simp [PAGING_STYLE_MARKER, PAGING_STYLE_LAST_KEY,
              PAGING_STYLE_HAS_NEXT, PAGING_STYLE_TOTAL]),
            if_neg (by simp [PAGING_STYLE_MARKER, PAGING_STYLE_LAST_KEY,
              PAGING_STYLE_HAS_NEXT, PAGING_STYLE_TOTAL])]
    | some n =>
      simp only at hnoshrink
      dsimp only
      rw [if_neg hnoshrink]
      rcases hsty with rfl | rfl <;>
        rw [if_neg (by simp [PAGING_STYLE_MARKER, PAGING_STYLE_LAST_KEY,
              PAGING_STYLE_HAS_NEXT, PAGING_STYLE_TOTAL]),
            if_neg (by simp [PAGING_STYLE_MARKER, PAGING_STYLE_LAST_KEY,
              PAGING_STYLE_HAS_NEXT, PAGING_STYLE_TOTAL])]
  have hpage : idealServer ([] : List α)
      (⟨some L, some 0, pp.marker, pp.last_key⟩ : PagParams) =
      ⟨[], false, 0, none, none⟩ := by
    unfold idealServer
    dsimp only
    simp only [Option.getD_some]
    simp [List.drop_nil, List.take_nil]
  have hpe := page_end_offset_eval sty hsty mrc nr L (0 : Int) m 0 false
    ⟨some L, some 0, pp.marker, pp.last_key⟩ (C + 1) GenControl.loopTop
    (⟨[], false, 0, none, none⟩ : Page α) false rfl
    (by rw [decide_eq_false_iff_not]; show ¬((0 : Int) + mrc < (0 : Int)); omega)
  rw [if_neg (by simp)] at hpe
  have hstep : genStep (idealServer ([] : List α))
      (⟨sty, mrc, nr, L, 0, m, 0, false, pp, C, .loopTop⟩ : GenSt α) =
      .inr (.stopped ⟨sty, mrc, nr, L, 0 + mrc, m, 0, false,
        ⟨some L, some 0, pp.marker, pp.last_key⟩, C + 1, .finished⟩) := by
    simp only [genStep, hsp, hpage, hpe]
  exact genDrain_of_stop (idealServer ([] : List α)) hstep fuel

/-- A resumption that yields an item leaves the flag as it was. -/
theorem genResume_yield_flag (f : Nat) : ∀ (st st2 : GenSt α) (x : α),
    genResume server f st = some (.yielded st2 x) → st2.flag = st.flag := by
  induction f with
  | zero => intro st st2 x h; simp [genResume] at h
  | succ f ih =>
    intro st st2 x h
    cases hgs : genStep server st with
    | inl st3 =>
      rw [genResume, hgs] at h
      rw [ih st3 st2 x h, genStep_flag_inl server hgs]
    | inr o =>
      rw [genResume, hgs] at h
      injection h with h2
      rw [h2] at hgs
      exact genStep_flag_yield server hgs

/-- A PaginatedResource next() call that delivers an item observes
limit_less_than_available_results as false afterwards if it was false
before: the flag cannot be seen true until the iteration is exhausted. -/
theorem pagRes_next_item_flag (fuel : Nat) (r r2 : PagRes α) (x : α)
    (hflag : r.st.flag = false)
    (h : pagRes_next server fuel r = some (r2, .item x)) :
    r2.st.flag = false := by
  unfold pagRes_next at h
  split at h
  · have h2 : (NextOut.stopIteration : NextOut α) = .item x :=
      congrArg Prod.snd (Option.some.inj h)
    exact NextOut.noConfusion h2
  · split at h
    · have h3 : ({ r with first_elem := none } : PagRes α) = r2 :=
        congrArg Prod.fst (Option.some.inj h)
      rw [← h3]
      exact hflag
    · cases hres : genResume server fuel r.st with
      | none =>
        simp only [hres] at h
        exact Option.noConfusion h
      | some o =>
        cases o with
        | yielded st3 y =>
          simp only [hres] at h
          have h3 : ({ r with st := st3 } : PagRes α) = r2 :=
            congrArg Prod.fst (Option.some.inj h)
          rw [← h3]
          show st3.flag = false
          rw [genResume_yield_flag server fuel r.st st3 y hres]
          exact hflag
        | stopped st3 =>
          simp only [hres] at h
          have h4 : (NextOut.stopIteration : NextOut α) = .item x :=
            congrArg Prod.snd (Option.some.inj h)
          exact NextOut.noConfusion h4
        | raised st3 e =>
          simp only [hres] at h
          have h4 : (NextOut.raised e : NextOut α) = .item x :=
            congrArg Prod.snd (Option.some.inj h)
          exact NextOut.noConfusion h4


/-- The key for position j decodes back to j. -/
theorem encodeKey_length (j : Nat) : (encodeKey j).length = j := by
  simp [encodeKey, String.length]

/-- A key for a positive position is truthy. -/
theorem pyTruthy_encodeKey (j : Nat) (hj : 0 < j) :
    pyTruthy (some (encodeKey j)) = true := by
  simp only [pyTruthy, Bool.not_eq_eq_eq_not, Bool.not_true, beq_eq_false_iff_ne]
  intro h
  have := congrArg String.length h
  rw [encodeKey_length] at this
  simp [String.length] at this
  omega

/-- Resuming after a yield with a bounded budget that runs out inside the
current page: the fetched counter climbs to the budget, the records up to
the budget are yielded, the remainder of the page is discarded and the
generator sets the flag and returns (paging.py lines 343-357). -/
theorem drain_afterYield_stop_mid (sty mrc : Int) (NN : Nat) (lim off : Int)
    (m : Option String) (pp : PagParams) (C : Nat) (res : Page α) :
    ∀ (rest : List α) (F : Nat) (fuel : Nat),
      F < NN → NN ≤ F + rest.length + 1 →
      NN - F ≤ fuel →
      genDrain server fuel
        ⟨sty, mrc, some (NN : Int), lim, off, m, F, false, pp, C,
          .afterYield rest res⟩ =
        some (rest.take (NN - F - 1),
          ⟨sty, mrc, some (NN : Int), lim, off, m, NN, true, pp, C, .finished⟩) := by
  intro rest
  induction rest with
  | nil =>
    intro F fuel hFN hNN hfuel
    obtain ⟨f, rfl⟩ : ∃ f, fuel = f + 1 := ⟨fuel - 1, by omega⟩
    have hFN1 : F + 1 = NN := by simp at hNN; omega
    have hstop : genStep server
        (⟨sty, mrc, some (NN : Int), lim, off, m, F, false, pp, C,
          .afterYield [] res⟩ : GenSt α) =
        .inr (.stopped ⟨sty, mrc, some (NN : Int), lim, off, m, F + 1, true, pp, C,
          .finished⟩) := by
      simp only [genStep]
      rw [if_pos (by omega)]
    have := genDrain_of_stop server hstop f
    rw [hFN1] at this
    simpa using this
  | cons x rest2 ih =>
    intro F fuel hFN hNN hfuel
    simp only [List.length_cons] at hNN hfuel
    by_cases hhit : F + 1 = NN
    · obtain ⟨f, rfl⟩ : ∃ f, fuel = f + 1 := ⟨fuel - 1, by omega⟩
      have hstop : genStep server
          (⟨sty, mrc, some (NN : Int), lim, off, m, F, false, pp, C,
            .afterYield (x :: rest2) res⟩ : GenSt α) =
          .inr (.stopped ⟨sty, mrc, some (NN : Int), lim, off, m, F + 1, true, pp,
            C, .finished⟩) := by
        simp only [genStep]
        rw [if_pos (by omega)]
      have := genDrain_of_stop server hstop f
      rw [hhit] at this
      rw [show NN - F - 1 = 0 by omega]
      simpa using this
    · have hstep : genStep server
          (⟨sty, mrc, some (NN : Int), lim, off, m, F, false, pp, C,
            .afterYield (x :: rest2) res⟩ : GenSt α) =
          .inr (.yielded ⟨sty, mrc, some (NN : Int), lim, off, m, F + 1, false, pp,
            C, .afterYield rest2 res⟩ x) := by
        simp only [genStep]
        rw [if_neg (by push_cast; omega)]
      have hrec := ih (F + 1) (fuel - 1) (by omega) (by omega) (by omega)
      have := genDrain_of_yield server hstep hrec
      rw [show fuel - 1 + 1 = fuel by omega] at this
      rw [show NN - F - 1 = (NN - (F + 1) - 1) + 1 by omega, List.take_succ_cons]
      exact this

/-- Evaluation of the end-of-page transition for the keyed paging styles:
LAST_KEY stores the response last_key and follows has_next_page, MARKER
stores the response next_marker and follows its truthiness; neither
touches the offset. -/
theorem page_end_keyed_eval (sty : Int)
    (hsty : sty = PAGING_STYLE_LAST_KEY ∨ sty = PAGING_STYLE_MARKER)
    (mrc : Int) (nr : Option Int) (lim off : Int) (m : Option String) (F : Nat)
    (fl : Bool) (pp : PagParams) (C : Nat) (ctl : GenControl α) (res : Page α)
    (M2 : Option String) (b : Bool)
    (h1 : sty = PAGING_STYLE_LAST_KEY → res.last_key = M2 ∧ res.has_next_page = b)
    (h2 : sty = PAGING_STYLE_MARKER →
      res.next_marker = M2 ∧ pyTruthy res.next_marker = b) :
    page_end (⟨sty, mrc, nr, lim, off, m, F, fl, pp, C, ctl⟩ : GenSt α) res =
      if b then
        .continueLoop ⟨sty, mrc, nr, lim, off, M2, F, fl, pp, C, .loopTop⟩
      else
        .out (.stopped ⟨sty, mrc, nr, lim, off, M2, F, fl, pp, C, .finished⟩) := by
  unfold page_end check_has_next_page
  dsimp only
  rcases hsty with rfl | rfl
  · obtain ⟨hM2, hb⟩ := h1 rfl
    rw [if_pos rfl, hM2, hb]
    cases b <;> rfl
  · obtain ⟨hM2, hb⟩ := h2 rfl
    rw [if_neg (by simp [PAGING_STYLE_MARKER, PAGING_STYLE_LAST_KEY]),
      if_pos rfl, hb, hM2]
    cases b <;> rfl


/-- Evaluation of _set_params_for_next_call for the keyed paging styles
at offset 0 with no final-page shrink: the limit parameter is written, a
truthy marker is written to the style-specific query parameter, and the
resulting params decode to the position the marker encodes (0 when the
marker is still unset). -/
theorem set_params_keyed_eval (sty : Int)
    (hsty : sty = PAGING_STYLE_LAST_KEY ∨ sty = PAGING_STYLE_MARKER)
    (mrc : Int) (nr : Option Int) (L : Int)
    (hnoshrink : match nr with | some n => ¬((0 : Int) + L > n) | none => True)
    (M : Option String) (F : Nat) (fl : Bool) (pp : PagParams) (C : Nat)
    (ctl : GenControl α) (k : Nat)
    (hM : (k = 0 ∧ M = none ∧ pp.marker = none ∧ pp.last_key = none) ∨
      (1 ≤ k ∧ M = some (encodeKey k) ∧
        (sty = PAGING_STYLE_LAST_KEY → pp.marker = none))) :
    ∃ pp2 : PagParams,
      set_params_for_next_call
        (⟨sty, mrc, nr, L, 0, M, F, fl, pp, C, ctl⟩ : GenSt α) =
        ⟨sty, mrc, nr, L, 0, M, F, fl, pp2, C, ctl⟩ ∧
      pp2.limit = some L ∧ keyPos pp2 = k ∧
      (sty = PAGING_STYLE_LAST_KEY → pp2.marker = none) := by
  rcases hsty with rfl | rfl
  · rcases hM with ⟨rfl, rfl, hm1, hm2⟩ | ⟨hk, rfl, hmk⟩
    · refine ⟨{ pp with limit := some L }, ?_, rfl, ?_, fun _ => hm1⟩
      · unfold set_params_for_next_call
        cases nr with
        | none =>
          dsimp only
          rw [if_neg (by simp [PAGING_STYLE_MARKER, PAGING_STYLE_LAST_KEY]),
            if_pos rfl, if_neg (by simp [pyTruthy])]
        | some n =>
          simp only at hnoshrink
          dsimp only
          rw [if_neg hnoshrink,
            if_neg (by simp [PAGING_STYLE_MARKER, PAGING_STYLE_LAST_KEY]),
            if_pos rfl, if_neg (by simp [pyTruthy])]
      · simp [keyPos, hm1, hm2]
    · refine ⟨{ pp with limit := some L, last_key := some (encodeKey k) }, ?_,
        rfl, ?_, fun _ => hmk rfl⟩
      · unfold set_params_for_next_call
        cases nr with
        | none =>
          dsimp only
          rw [if_neg (by simp [PAGING_STYLE_MARKER, PAGING_STYLE_LAST_KEY]),
            if_pos rfl, if_pos (pyTruthy_encodeKey k hk)]
        | some n =>
          simp only at hnoshrink
          dsimp only
          rw [if_neg hnoshrink,
            if_neg (by simp [PAGING_STYLE_MARKER, PAGING_STYLE_LAST_KEY]),
            if_pos rfl, if_pos (pyTruthy_encodeKey k hk)]
      · simp [keyPos, hmk rfl, encodeKey_length]
  · rcases hM with ⟨rfl, rfl, hm1, hm2⟩ | ⟨hk, rfl, hmk⟩
    · refine ⟨{ pp with limit := some L }, ?_, rfl, ?_,
        fun h => absurd h (by simp [PAGING_STYLE_MARKER, PAGING_STYLE_LAST_KEY])⟩
      · unfold set_params_for_next_call
        cases nr with
        | none =>
          dsimp only
          rw [if_pos rfl, if_neg (by simp [pyTruthy])]
        | some n =>
          simp only at hnoshrink
          dsimp only
          rw [if_neg hnoshrink, if_pos rfl, if_neg (by simp [pyTruthy])]
      · simp [keyPos, hm1, hm2]
    · refine ⟨{ pp with limit := some L, marker := some (encodeKey k) }, ?_,
        rfl, ?_,
        fun h => absurd h (by simp [PAGING_STYLE_MARKER, PAGING_STYLE_LAST_KEY])⟩
      · unfold set_params_for_next_call
        cases nr with
        | none =>
          dsimp only
          rw [if_pos rfl, if_pos (pyTruthy_encodeKey k hk)]
        | some n =>
          simp only at hnoshrink
          dsimp only
          rw [if_neg hnoshrink, if_pos rfl, if_pos (pyTruthy_encodeKey k hk)]
      · simp [keyPos, encodeKey_length]


/-- A keyed-style fetch against an empty result set returns an empty page
with no next marker and a false has_next_page, so the loop exits at once
with the flag unset. -/
theorem drain_keyed_empty (sty : Int)
    (hsty : sty = PAGING_STYLE_LAST_KEY ∨ sty = PAGING_STYLE_MARKER)
    (nr : Option Int) (l : Nat) (mrc : Int) (C fuel : Nat)
    (hnoshrink : match nr with
                 | some n => ¬((0 : Int) + (l : Int) > n)
                 | none => True) :
    ∃ stF, genDrain (idealServerKeyed ([] : List α)) (fuel + 1)
      ⟨sty, mrc, nr, (l : Int), 0, none, 0, false, ⟨none, none, none, none⟩, C,
        .loopTop⟩ =
      some ([], stF) ∧ stF.flag = false := by
  obtain ⟨pp2, hsp, hlim, hpos, hlk⟩ := set_params_keyed_eval (α := α) sty hsty
    mrc nr ((l : Nat) : Int) hnoshrink none 0 false ⟨none, none, none, none⟩ C
    .loopTop 0 (Or.inl ⟨rfl, rfl, rfl, rfl⟩)
  have hpage : idealServerKeyed ([] : List α) pp2 =
      ⟨[], false, 0, some (encodeKey (0 + l)), none⟩ := by
    unfold idealServerKeyed
    dsimp only
    rw [hpos, hlim]
    simp only [Option.getD_some]
    simp only [show ((l : Nat) : Int).toNat = l from by omega]
    simp
  rcases hsty with rfl | rfl
  · have hpe := page_end_keyed_eval PAGING_STYLE_LAST_KEY (Or.inl rfl) mrc nr
      ((l : Nat) : Int) 0 none 0 false pp2 (C + 1)
      (GenControl.loopTop (α := α))
      (⟨[], false, 0, some (encodeKey (0 + l)), none⟩ : Page α)
      (some (encodeKey (0 + l))) false
      (fun _ => ⟨rfl, rfl⟩)
      (fun h => absurd h (by simp [PAGING_STYLE_MARKER, PAGING_STYLE_LAST_KEY]))
    rw [if_neg (by simp)] at hpe
    have hstep : genStep (idealServerKeyed ([] : List α))
        (⟨PAGING_STYLE_LAST_KEY, mrc, nr, (l : Int), 0, none, 0, false,
          ⟨none, none, none, none⟩, C, .loopTop⟩ : GenSt α) =
        .inr (.stopped ⟨PAGING_STYLE_LAST_KEY, mrc, nr, (l : Int), 0,
          some (encodeKey (0 + l)), 0, false, pp2, C + 1, .finished⟩) := by
      simp only [genStep, hsp, hpage, hpe]
    exact ⟨_, genDrain_of_stop (idealServerKeyed ([] : List α)) hstep fuel, rfl⟩
  · have hpe := page_end_keyed_eval PAGING_STYLE_MARKER (Or.inr rfl) mrc nr
      ((l : Nat) : Int) 0 none 0 false pp2 (C + 1)
      (GenControl.loopTop (α := α))
      (⟨[], false, 0, some (encodeKey (0 + l)), none⟩ : Page α)
      none false
      (fun h => absurd h (by simp [PAGING_STYLE_MARKER, PAGING_STYLE_LAST_KEY]))
      (fun _ => ⟨rfl, rfl⟩)
    rw [if_neg (by simp)] at hpe
    have hstep : genStep (idealServerKeyed ([] : List α))
        (⟨PAGING_STYLE_MARKER, mrc, nr, (l : Int), 0, none, 0, false,
          ⟨none, none, none, none⟩, C, .loopTop⟩ : GenSt α) =
        .inr (.stopped ⟨PAGING_STYLE_MARKER, mrc, nr, (l : Int), 0,
          none, 0, false, pp2, C + 1, .finished⟩) := by
      simp only [genStep, hsp, hpage, hpe]
    exact ⟨_, genDrain_of_stop (idealServerKeyed ([] : List α)) hstep fuel, rfl⟩


/-- The loop run of a bounded keyed-style request whose budget is still
open: from the top of the while loop at marker position k*l with constant
page limit l, the generator yields exactly the remaining budgeted records
and returns with the flag set when the budget is filled, possibly
mid-page (paging.py lines 343-357: fetched records beyond the budget are
discarded). -/
theorem drain_keyed_budget_loop (recs : List α) (sty : Int)
    (hsty : sty = PAGING_STYLE_LAST_KEY ∨ sty = PAGING_STYLE_MARKER)
    (N l : Nat) (mrc : Int) (hl1 : 1 ≤ l) (hlN : l ≤ N)
    (hlen : N ≤ recs.length) :
    ∀ (q k C : Nat) (M : Option String) (pp : PagParams) (fuel : Nat),
      ((k = 0 ∧ M = none ∧ pp.marker = none ∧ pp.last_key = none) ∨
        (1 ≤ k ∧ M = some (encodeKey (k * l)) ∧
          (sty = PAGING_STYLE_LAST_KEY → pp.marker = none))) →
      N - k * l = q → k * l < N → 2 * q + 1 ≤ fuel →
      ∃ stF,
        genDrain (idealServerKeyed recs) fuel
          ⟨sty, mrc, some (N : Int), (l : Int), 0, M, k * l, false, pp, C,
            .loopTop⟩ =
          some ((recs.drop (k * l)).take (N - k * l), stF) ∧
        stF.flag = true := by
  intro q
  induction q using Nat.strong_induction_on with
  | _ q ih =>
    intro k C M pp fuel hM hq hkN hfuel
    have hk1 : (k + 1) * l = k * l + l := by ring
    have hM2 : (k * l = 0 ∧ M = none ∧ pp.marker = none ∧ pp.last_key = none) ∨
        (1 ≤ k * l ∧ M = some (encodeKey (k * l)) ∧
          (sty = PAGING_STYLE_LAST_KEY → pp.marker = none)) := by
      rcases hM with ⟨h1, h2, h3, h4⟩ | ⟨h1, h2, h3⟩
      · subst h1
        exact Or.inl ⟨by omega, h2, h3, h4⟩
      · exact Or.inr ⟨Nat.mul_pos h1 hl1, h2, h3⟩
    obtain ⟨pp2, hsp, hlim, hpos, hlk⟩ := set_params_keyed_eval (α := α) sty hsty
      mrc (some (N : Int)) ((l : Nat) : Int)
      (by show ¬((0 : Int) + (l : Int) > (N : Int)); omega)
      M (k * l) false pp C .loopTop (k * l) hM2
    have hpage : idealServerKeyed recs pp2 =
        ⟨(recs.drop (k * l)).take l, decide (k * l + l < recs.length),
          (recs.length : Int), some (encodeKey (k * l + l)),
          if k * l + l < recs.length then some (encodeKey (k * l + l))
          else none⟩ := by
      unfold idealServerKeyed
      dsimp only
      rw [hpos, hlim]
      simp only [Option.getD_some]
      simp only [show ((l : Nat) : Int).toNat = l from by omega]
    have hplen : ((recs.drop (k * l)).take l).length =
        min l (recs.length - k * l) := by
      rw [List.length_take, List.length_drop]
    obtain ⟨x, rest, hxr⟩ : ∃ x rest, (recs.drop (k * l)).take l = x :: rest := by
      cases hc : (recs.drop (k * l)).take l with
      | nil => rw [hc] at hplen; simp at hplen; omega
      | cons a b => exact ⟨a, b, rfl⟩
    have hrlen : rest.length = min l (recs.length - k * l) - 1 := by
      rw [hxr] at hplen
      simp at hplen
      omega
    have hstep : genStep (idealServerKeyed recs)
        (⟨sty, mrc, some (N : Int), (l : Int), 0, M, k * l, false, pp, C,
          .loopTop⟩ : GenSt α) =
        .inr (.yielded
          ⟨sty, mrc, some (N : Int), (l : Int), 0, M, k * l, false, pp2, C + 1,
            .afterYield rest
              ⟨(recs.drop (k * l)).take l, decide (k * l + l < recs.length),
                (recs.length : Int), some (encodeKey (k * l + l)),
                if k * l + l < recs.length then some (encodeKey (k * l + l))
                else none⟩⟩ x) := by
      simp only [genStep, hsp, hpage, hxr]
    by_cases hlast : N ≤ k * l + l
    · -- the budget runs out inside this page: early return, remainder of
      -- the page discarded
      have hstop := drain_afterYield_stop_mid (idealServerKeyed recs) sty mrc N
        ((l : Nat) : Int) 0 M pp2 (C + 1)
        ⟨(recs.drop (k * l)).take l, decide (k * l + l < recs.length),
          (recs.length : Int), some (encodeKey (k * l + l)),
          if k * l + l < recs.length then some (encodeKey (k * l + l))
          else none⟩
        rest (k * l) (fuel - 1) (by omega) (by omega) (by omega)
      have hfin := genDrain_of_yield (idealServerKeyed recs) hstep hstop
      rw [show fuel - 1 + 1 = fuel by omega] at hfin
      refine ⟨⟨sty, mrc, some (N : Int), (l : Int), 0, M, N, true, pp2, C + 1,
        .finished⟩, ?_, rfl⟩
      have hitems : (recs.drop (k * l)).take (N - k * l) =
          x :: rest.take (N - k * l - 1) := by
        have h1 : (recs.drop (k * l)).take (N - k * l) =
            ((recs.drop (k * l)).take l).take (N - k * l) := by
          rw [List.take_take, show min (N - k * l) l = N - k * l by omega]
        rw [h1, hxr, show N - k * l = (N - k * l - 1) + 1 by omega,
          List.take_succ_cons]
        simp
      rw [hitems]
      exact hfin
    · -- full page, more budget to come: every record of the page is
      -- delivered and the loop advances to marker position (k+1)*l
      have hlt : k * l + l < N := by omega
      have hrlen2 : rest.length = l - 1 := by omega
      obtain ⟨stF, hIH, hIHflag⟩ := ih (q - l) (by omega) (k + 1) (C + 1)
        (some (encodeKey ((k + 1) * l))) pp2 (2 * (q - l) + 1)
        (Or.inr ⟨by omega, rfl, hlk⟩)
        (by rw [hk1]; omega) (by rw [hk1]; omega) (Nat.le_refl _)
      rw [hk1] at hIH
      have hb : k * l + l < recs.length := by omega
      have hpe := page_end_keyed_eval sty hsty mrc (some (N : Int))
        ((l : Nat) : Int) 0 M (k * l + l) false pp2 (C + 1)
        (.afterYield ([] : List α)
          ⟨(recs.drop (k * l)).take l, decide (k * l + l < recs.length),
            (recs.length : Int), some (encodeKey (k * l + l)),
            if k * l + l < recs.length then some (encodeKey (k * l + l))
            else none⟩)
        ⟨(recs.drop (k * l)).take l, decide (k * l + l < recs.length),
          (recs.length : Int), some (encodeKey (k * l + l)),
          if k * l + l < recs.length then some (encodeKey (k * l + l))
          else none⟩
        (some (encodeKey (k * l + l))) true
        (fun _ => ⟨rfl, by simp only; rw [decide_eq_true_eq]; omega⟩)
        (fun _ => ⟨by simp only; rw [if_pos hb],
          by simp only; rw [if_pos hb]; exact pyTruthy_encodeKey _ (by omega)⟩)
      rw [if_pos rfl] at hpe
      have hend := drain_afterYield_end (idealServerKeyed recs) sty mrc
        (some (N : Int)) ((l : Nat) : Int) 0 M (k * l + l - 1) pp2 (C + 1)
        ⟨(recs.drop (k * l)).take l, decide (k * l + l < recs.length),
          (recs.length : Int), some (encodeKey (k * l + l)),
          if k * l + l < recs.length then some (encodeKey (k * l + l))
          else none⟩
        _ (2 * (q - l) + 1) _
        (by simp only; push_cast; omega)
        (by rw [show k * l + l - 1 + 1 = k * l + l by omega]; exact hpe)
        hIH
      have hwalk := drain_afterYield_walk (idealServerKeyed recs) sty mrc
        (some (N : Int)) ((l : Nat) : Int) 0 M pp2 (C + 1)
        ⟨(recs.drop (k * l)).take l, decide (k * l + l < recs.length),
          (recs.length : Int), some (encodeKey (k * l + l)),
          if k * l + l < recs.length then some (encodeKey (k * l + l))
          else none⟩
        rest (k * l) (2 * (q - l) + 1 + 1) _
        (by push_cast; omega)
        (by rw [show k * l + rest.length = k * l + l - 1 by omega]; exact hend)
      have hfin := genDrain_of_yield (idealServerKeyed recs) hstep hwalk
      refine ⟨stF, ?_, hIHflag⟩
      have hfuel2 : 2 * (q - l) + 1 + 1 + rest.length + 1 ≤ fuel := by omega
      have hmono := genDrain_mono_le (idealServerKeyed recs) hfuel2 _ _ hfin
      rw [hmono]
      congr 2
      rw [← List.cons_append, ← hxr]
      show (recs.drop (k * l)).take l ++
          ((recs.drop (k * l + l)).take (N - (k * l + l))) =
        (recs.drop (k * l)).take (N - k * l)
      rw [show recs.drop (k * l + l) = (recs.drop (k * l)).drop l by
        rw [List.drop_drop]]
      rw [← List.take_add]
      congr 1
      omega


/-- The loop run of a bounded keyed-style request over a result set too
small for the budget: every remaining record is yielded, the terminal
page reports no further data, and the generator leaves the flag unset. -/
theorem drain_keyed_starve_loop (recs : List α) (sty : Int)
    (hsty : sty = PAGING_STYLE_LAST_KEY ∨ sty = PAGING_STYLE_MARKER)
    (N l : Nat) (mrc : Int) (hl1 : 1 ≤ l) (hlN : l ≤ N)
    (hlenN : recs.length < N) :
    ∀ (q k C : Nat) (M : Option String) (pp : PagParams) (fuel : Nat),
      ((k = 0 ∧ M = none ∧ pp.marker = none ∧ pp.last_key = none) ∨
        (1 ≤ k ∧ M = some (encodeKey (k * l)) ∧
          (sty = PAGING_STYLE_LAST_KEY → pp.marker = none))) →
      recs.length - k * l = q → k * l < recs.length → 2 * q + 1 ≤ fuel →
      ∃ stF,
        genDrain (idealServerKeyed recs) fuel
          ⟨sty, mrc, some (N : Int), (l : Int), 0, M, k * l, false, pp, C,
            .loopTop⟩ =
          some (recs.drop (k * l), stF) ∧
        stF.flag = false := by
  intro q
  induction q using Nat.strong_induction_on with
  | _ q ih =>
    intro k C M pp fuel hM hq hkN hfuel
    have hk1 : (k + 1) * l = k * l + l := by ring
    have hM2 : (k * l = 0 ∧ M = none ∧ pp.marker = none ∧ pp.last_key = none) ∨
        (1 ≤ k * l ∧ M = some (encodeKey (k * l)) ∧
          (sty = PAGING_STYLE_LAST_KEY → pp.marker = none)) := by
      rcases hM with ⟨h1, h2, h3, h4⟩ | ⟨h1, h2, h3⟩
      · subst h1
        exact Or.inl ⟨by omega, h2, h3, h4⟩
      · exact Or.inr ⟨Nat.mul_pos h1 hl1, h2, h3⟩
    obtain ⟨pp2, hsp, hlim, hpos, hlk⟩ := set_params_keyed_eval (α := α) sty hsty
      mrc (some (N : Int)) ((l : Nat) : Int)
      (by show ¬((0 : Int) + (l : Int) > (N : Int)); omega)
      M (k * l) false pp C .loopTop (k * l) hM2
    have hpage : idealServerKeyed recs pp2 =
        ⟨(recs.drop (k * l)).take l, decide (k * l + l < recs.length),
          (recs.length : Int), some (encodeKey (k * l + l)),
          if k * l + l < recs.length then some (encodeKey (k * l + l))
          else none⟩ := by
      unfold idealServerKeyed
      dsimp only
      rw [hpos, hlim]
      simp only [Option.getD_some]
      simp only [show ((l : Nat) : Int).toNat = l from by omega]
    have hplen : ((recs.drop (k * l)).take l).length =
        min l (recs.length - k * l) := by
      rw [List.length_take, List.length_drop]
    obtain ⟨x, rest, hxr⟩ : ∃ x rest, (recs.drop (k * l)).take l = x :: rest := by
      cases hc : (recs.drop (k * l)).take l with
      | nil => rw [hc] at hplen; simp at hplen; omega
      | cons a b => exact ⟨a, b, rfl⟩
    have hrlen : rest.length = min l (recs.length - k * l) - 1 := by
      rw [hxr] at hplen
      simp at hplen
      omega
    have hstep : genStep (idealServerKeyed recs)
        (⟨sty, mrc, some (N : Int), (l : Int), 0, M, k * l, false, pp, C,
          .loopTop⟩ : GenSt α) =
        .inr (.yielded
          ⟨sty, mrc, some (N : Int), (l : Int), 0, M, k * l, false, pp2, C + 1,
            .afterYield rest
              ⟨(recs.drop (k * l)).take l, decide (k * l + l < recs.length),
                (recs.length : Int), some (encodeKey (k * l + l)),
                if k * l + l < recs.length then some (encodeKey (k * l + l))
                else none⟩⟩ x) := by
      simp only [genStep, hsp, hpage, hxr]
    by_cases hlast : recs.length ≤ k * l + l
    · -- terminal page: it carries every remaining record and reports no
      -- further data, so the loop exits with the flag untouched
      have hxfull : (recs.drop (k * l)).take l = recs.drop (k * l) :=
        List.take_of_length_le (by rw [List.length_drop]; omega)
      have hrlen2 : rest.length = recs.length - k * l - 1 := by omega
      obtain ⟨M2, hpe⟩ : ∃ M2 : Option String,
          page_end
            (⟨sty, mrc, some (N : Int), (l : Int), 0, M, recs.length, false,
              pp2, C + 1,
              .afterYield ([] : List α)
                ⟨(recs.drop (k * l)).take l, decide (k * l + l < recs.length),
                  (recs.length : Int), some (encodeKey (k * l + l)),
                  if k * l + l < recs.length then some (encodeKey (k * l + l))
                  else none⟩⟩ : GenSt α)
            ⟨(recs.drop (k * l)).take l, decide (k * l + l < recs.length),
              (recs.length : Int), some (encodeKey (k * l + l)),
              if k * l + l < recs.length then some (encodeKey (k * l + l))
              else none⟩ =
          .out (.stopped ⟨sty, mrc, some (N : Int), (l : Int), 0, M2,
            recs.length, false, pp2, C + 1, .finished⟩) := by
        rcases hsty with rfl | rfl
        · refine ⟨some (encodeKey (k * l + l)), ?_⟩
          have hpe0 := page_end_keyed_eval PAGING_STYLE_LAST_KEY (Or.inl rfl)
            mrc (some (N : Int)) ((l : Nat) : Int) 0 M recs.length false pp2
            (C + 1)
            (.afterYield ([] : List α)
              ⟨(recs.drop (k * l)).take l, decide (k * l + l < recs.length),
                (recs.length : Int), some (encodeKey (k * l + l)),
                if k * l + l < recs.length then some (encodeKey (k * l + l))
                else none⟩)
            ⟨(recs.drop (k * l)).take l, decide (k * l + l < recs.length),
              (recs.length : Int), some (encodeKey (k * l + l)),
              if k * l + l < recs.length then some (encodeKey (k * l + l))
              else none⟩
            (some (encodeKey (k * l + l))) false
            (fun _ => ⟨rfl, by simp only; rw [decide_eq_false_iff_not]; omega⟩)
            (fun h => absurd h (by simp [PAGING_STYLE_MARKER,
              PAGING_STYLE_LAST_KEY]))
          rw [if_neg (show ¬(false = true) by simp)] at hpe0
          exact hpe0
        · refine ⟨none, ?_⟩
          have hpe0 := page_end_keyed_eval PAGING_STYLE_MARKER (Or.inr rfl)
            mrc (some (N : Int)) ((l : Nat) : Int) 0 M recs.length false pp2
            (C + 1)
            (.afterYield ([] : List α)
              ⟨(recs.drop (k * l)).take l, decide (k * l + l < recs.length),
                (recs.length : Int), some (encodeKey (k * l + l)),
                if k * l + l < recs.length then some (encodeKey (k * l + l))
                else none⟩)
            ⟨(recs.drop (k * l)).take l, decide (k * l + l < recs.length),
              (recs.length : Int), some (encodeKey (k * l + l)),
              if k * l + l < recs.length then some (encodeKey (k * l + l))
              else none⟩
            none false
            (fun h => absurd h (by simp [PAGING_STYLE_MARKER,
              PAGING_STYLE_LAST_KEY]))
            (fun _ => ⟨by simp only; rw [if_neg (by omega)],
              by simp only; rw [if_neg (by omega)]; rfl⟩)
          rw [if_neg (show ¬(false = true) by simp)] at hpe0
          exact hpe0
      have hend := drain_afterYield_end_stop (idealServerKeyed recs) sty mrc
        (some (N : Int)) ((l : Nat) : Int) 0 M (recs.length - 1) pp2 (C + 1)
        ⟨(recs.drop (k * l)).take l, decide (k * l + l < recs.length),
          (recs.length : Int), some (encodeKey (k * l + l)),
          if k * l + l < recs.length then some (encodeKey (k * l + l))
          else none⟩
        _ 0
        (by simp only; push_cast; omega)
        (by rw [show recs.length - 1 + 1 = recs.length by omega]; exact hpe)
      have hwalk := drain_afterYield_walk (idealServerKeyed recs) sty mrc
        (some (N : Int)) ((l : Nat) : Int) 0 M pp2 (C + 1)
        ⟨(recs.drop (k * l)).take l, decide (k * l + l < recs.length),
          (recs.length : Int), some (encodeKey (k * l + l)),
          if k * l + l < recs.length then some (encodeKey (k * l + l))
          else none⟩
        rest (k * l) (0 + 1) _
        (by push_cast; omega)
        (by rw [show k * l + rest.length = recs.length - 1 by omega]; exact hend)
      have hfin := genDrain_of_yield (idealServerKeyed recs) hstep hwalk
      refine ⟨⟨sty, mrc, some (N : Int), (l : Int), 0, M2, recs.length, false,
        pp2, C + 1, .finished⟩, ?_, rfl⟩
      have hfuel2 : 0 + 1 + rest.length + 1 ≤ fuel := by omega
      have hmono := genDrain_mono_le (idealServerKeyed recs) hfuel2 _ _ hfin
      rw [hmono]
      congr 2
      simp only [List.append_nil]
      rw [← hxfull, hxr]
    · -- full page, more records remain: deliver the page and advance to
      -- marker position (k+1)*l
      have hlt : k * l + l < recs.length := by omega
      have hrlen2 : rest.length = l - 1 := by omega
      obtain ⟨stF, hIH, hIHflag⟩ := ih (q - l) (by omega) (k + 1) (C + 1)
        (some (encodeKey ((k + 1) * l))) pp2 (2 * (q - l) + 1)
        (Or.inr ⟨by omega, rfl, hlk⟩)
        (by rw [hk1]; omega) (by rw [hk1]; omega) (Nat.le_refl _)
      rw [hk1] at hIH
      have hpe := page_end_keyed_eval sty hsty mrc (some (N : Int))
        ((l : Nat) : Int) 0 M (k * l + l) false pp2 (C + 1)
        (.afterYield ([] : List α)
          ⟨(recs.drop (k * l)).take l, decide (k * l + l < recs.length),
            (recs.length : Int), some (encodeKey (k * l + l)),
            if k * l + l < recs.length then some (encodeKey (k * l + l))
            else none⟩)
        ⟨(recs.drop (k * l)).take l, decide (k * l + l < recs.length),
          (recs.length : Int), some (encodeKey (k * l + l)),
          if k * l + l < recs.length then some (encodeKey (k * l + l))
          else none⟩
        (some (encodeKey (k * l + l))) true
        (fun _ => ⟨rfl, by simp only; rw [decide_eq_true_eq]; omega⟩)
        (fun _ => ⟨by simp only; rw [if_pos hlt],
          by simp only; rw [if_pos hlt]; exact pyTruthy_encodeKey _ (by omega)⟩)
      rw [if_pos rfl] at hpe
      have hend := drain_afterYield_end (idealServerKeyed recs) sty mrc
        (some (N : Int)) ((l : Nat) : Int) 0 M (k * l + l - 1) pp2 (C + 1)
        ⟨(recs.drop (k * l)).take l, decide (k * l + l < recs.length),
          (recs.length : Int), some (encodeKey (k * l + l)),
          if k * l + l < recs.length then some (encodeKey (k * l + l))
          else none⟩
        _ (2 * (q - l) + 1) _
        (by simp only; push_cast; omega)
        (by rw [show k * l + l - 1 + 1 = k * l + l by omega]; exact hpe)
        hIH
      have hwalk := drain_afterYield_walk (idealServerKeyed recs) sty mrc
        (some (N : Int)) ((l : Nat) : Int) 0 M pp2 (C + 1)
        ⟨(recs.drop (k * l)).take l, decide (k * l + l < recs.length),
          (recs.length : Int), some (encodeKey (k * l + l)),
          if k * l + l < recs.length then some (encodeKey (k * l + l))
          else none⟩
        rest (k * l) (2 * (q - l) + 1 + 1) _
        (by push_cast; omega)
        (by rw [show k * l + rest.length = k * l + l - 1 by omega]; exact hend)
      have hfin := genDrain_of_yield (idealServerKeyed recs) hstep hwalk
      refine ⟨stF, ?_, hIHflag⟩
      have hfuel2 : 2 * (q - l) + 1 + 1 + rest.length + 1 ≤ fuel := by omega
      have hmono := genDrain_mono_le (idealServerKeyed recs) hfuel2 _ _ hfin
      rw [hmono]
      congr 2
      rw [← List.cons_append, ← hxr]
      show (recs.drop (k * l)).take l ++ recs.drop (k * l + l) =
        recs.drop (k * l)
      rw [show recs.drop (k * l + l) = (recs.drop (k * l)).drop l by
        rw [List.drop_drop]]
      exact List.take_append_drop l (recs.drop (k * l))


/-- A bounded offset-style request whose budget fits in a single page
(page cap at least the budget): the start-capped limit N fetches the
first N records at once, the early return fires at the Nth and the flag
is set after exactly one call. -/
theorem drain_offset_bigcap_budget (recs : List α) (sty : Int)
    (hsty : sty = PAGING_STYLE_HAS_NEXT ∨ sty = PAGING_STYLE_TOTAL)
    (N P : Nat) (hN : 0 < N) (hNP : N ≤ P) (hlen : N ≤ recs.length)
    (C fuel : Nat) (hfuel : N + 1 ≤ fuel) :
    ∃ stF, genDrain (idealServer recs) fuel
      ⟨sty, (P : Int), some (N : Int), (N : Int), 0, none, 0, false,
        ⟨none, none, none, none⟩, C, .loopTop⟩ =
      some (recs.take N, stF) ∧ stF.flag = true := by
  have hsp : set_params_for_next_call
      (⟨sty, (P : Int), some (N : Int), (N : Int), 0, none, 0, false,
        ⟨none, none, none, none⟩, C, .loopTop⟩ : GenSt α) =
      ⟨sty, (P : Int), some (N : Int), (N : Int), 0, none, 0, false,
        ⟨some (N : Int), some 0, none, none⟩, C, .loopTop⟩ := by
    unfold set_params_for_next_call
    dsimp only
    rw [if_neg (by omega)]
    rcases hsty with rfl | rfl <;>
      rw [if_neg (by simp [PAGING_STYLE_MARKER, PAGING_STYLE_LAST_KEY,
            PAGING_STYLE_HAS_NEXT, PAGING_STYLE_TOTAL]),
          if_neg (by simp [PAGING_STYLE_MARKER, PAGING_STYLE_LAST_KEY,
            PAGING_STYLE_HAS_NEXT, PAGING_STYLE_TOTAL])]
  have hpage : idealServer recs
      (⟨some (N : Int), some 0, none, none⟩ : PagParams) =
      ⟨recs.take N, decide (N < recs.length), (recs.length : Int),
        none, none⟩ := by
    unfold idealServer
    dsimp only
    simp only [Option.getD_some]
    simp only [show ((N : Nat) : Int).toNat = N from by omega,
      show ((0 : Int)).toNat = 0 from rfl]
    simp
  have hplen : (recs.take N).length = N := by
    rw [List.length_take]
    omega
  obtain ⟨x, rest, hxr⟩ : ∃ x rest, recs.take N = x :: rest := by
    cases hc : recs.take N with
    | nil => rw [hc] at hplen; simp at hplen; omega
    | cons a b => exact ⟨a, b, rfl⟩
  have hrlen : rest.length = N - 1 := by
    rw [hxr] at hplen
    simp at hplen
    omega
  have hstep : genStep (idealServer recs)
      (⟨sty, (P : Int), some (N : Int), (N : Int), 0, none, 0, false,
        ⟨none, none, none, none⟩, C, .loopTop⟩ : GenSt α) =
      .inr (.yielded
        ⟨sty, (P : Int), some (N : Int), (N : Int), 0, none, 0, false,
          ⟨some (N : Int), some 0, none, none⟩, C + 1,
          .afterYield rest
            ⟨recs.take N, decide (N < recs.length), (recs.length : Int),
              none, none⟩⟩ x) := by
    simp only [genStep, hsp, hpage, hxr]
  have hstop := drain_afterYield_stop_mid (idealServer recs) sty (P : Int) N
    ((N : Nat) : Int) 0 none ⟨some (N : Int), some 0, none, none⟩ (C + 1)
    ⟨recs.take N, decide (N < recs.length), (recs.length : Int), none, none⟩
    rest 0 (fuel - 1) (by omega) (by omega) (by omega)
  have hfin := genDrain_of_yield (idealServer recs) hstep hstop
  rw [show fuel - 1 + 1 = fuel by omega] at hfin
  rw [show rest.take (N - 0 - 1) = rest by
    rw [show N - 0 - 1 = rest.length by omega, List.take_length]] at hfin
  rw [← hxr] at hfin
  exact ⟨_, hfin, rfl⟩

/-- A bounded offset-style request with a single-page cap over a result
set smaller than the budget: the one page delivers every record, the
termination condition fires and the flag stays unset. -/
theorem drain_offset_bigcap_starve (recs : List α) (sty : Int)
    (hsty : sty = PAGING_STYLE_HAS_NEXT ∨ sty = PAGING_STYLE_TOTAL)
    (N P : Nat) (hN : 0 < N) (hNP : N ≤ P) (hpos : 0 < recs.length)
    (hlenN : recs.length < N)
    (C fuel : Nat) (hfuel : recs.length + 2 ≤ fuel) :
    ∃ stF, genDrain (idealServer recs) fuel
      ⟨sty, (P : Int), some (N : Int), (N : Int), 0, none, 0, false,
        ⟨none, none, none, none⟩, C, .loopTop⟩ =
      some (recs, stF) ∧ stF.flag = false := by
  have hsp : set_params_for_next_call
      (⟨sty, (P : Int), some (N : Int), (N : Int), 0, none, 0, false,
        ⟨none, none, none, none⟩, C, .loopTop⟩ : GenSt α) =
      ⟨sty, (P : Int), some (N : Int), (N : Int), 0, none, 0, false,
        ⟨some (N : Int), some 0, none, none⟩, C, .loopTop⟩ := by
    unfold set_params_for_next_call
    dsimp only
    rw [if_neg (by omega)]
    rcases hsty with rfl | rfl <;>
      rw [if_neg (by simp [PAGING_STYLE_MARKER, PAGING_STYLE_LAST_KEY,
            PAGING_STYLE_HAS_NEXT, PAGING_STYLE_TOTAL]),
          if_neg (by simp [PAGING_STYLE_MARKER, PAGING_STYLE_LAST_KEY,
            PAGING_STYLE_HAS_NEXT, PAGING_STYLE_TOTAL])]
  have hpage : idealServer recs
      (⟨some (N : Int), some 0, none, none⟩ : PagParams) =
      ⟨recs, decide (N < recs.length), (recs.length : Int), none, none⟩ := by
    unfold idealServer
    dsimp only
    simp only [Option.getD_some]
    simp only [show ((N : Nat) : Int).toNat = N from by omega,
      show ((0 : Int)).toNat = 0 from rfl]
    simp [List.take_of_length_le (le_of_lt hlenN)]
  obtain ⟨x, rest, hxr⟩ : ∃ x rest, recs = x :: rest := by
    cases hc : recs with
    | nil => rw [hc] at hpos; simp at hpos
    | cons a b => exact ⟨a, b, rfl⟩
  have hpage2 : idealServer recs
      (⟨some (N : Int), some 0, none, none⟩ : PagParams) =
      ⟨x :: rest, decide (N < recs.length), (recs.length : Int),
        none, none⟩ := by
    rw [hpage, hxr]
  have hrlen : rest.length = recs.length - 1 := by
    rw [hxr]
    simp
  have hstep : genStep (idealServer recs)
      (⟨sty, (P : Int), some (N : Int), (N : Int), 0, none, 0, false,
        ⟨none, none, none, none⟩, C, .loopTop⟩ : GenSt α) =
      .inr (.yielded
        ⟨sty, (P : Int), some (N : Int), (N : Int), 0, none, 0, false,
          ⟨some (N : Int), some 0, none, none⟩, C + 1,
          .afterYield rest
            ⟨x :: rest, decide (N < recs.length), (recs.length : Int),
              none, none⟩⟩ x) := by
    simp only [genStep, hsp, hpage2]
  have hpe := page_end_offset_eval sty hsty (P : Int) (some (N : Int))
    ((N : Nat) : Int) 0 none recs.length false
    ⟨some (N : Int), some 0, none, none⟩ (C + 1)
    (.afterYield ([] : List α)
      ⟨x :: rest, decide (N < recs.length), (recs.length : Int), none, none⟩)
    (⟨x :: rest, decide (N < recs.length), (recs.length : Int),
      none, none⟩ : Page α)
    false
    (by simp only; rw [decide_eq_false_iff_not]; omega)
    (by rw [decide_eq_false_iff_not]
        show ¬((0 : Int) + (P : Int) < (recs.length : Int))
        omega)
  rw [if_neg (show ¬(false = true) by simp)] at hpe
  have hend := drain_afterYield_end_stop (idealServer recs) sty (P : Int)
    (some (N : Int)) ((N : Nat) : Int) 0 none (recs.length - 1)
    ⟨some (N : Int), some 0, none, none⟩ (C + 1)
    ⟨x :: rest, decide (N < recs.length), (recs.length : Int), none, none⟩
    _ 0
    (by simp only; push_cast; omega)
    (by rw [show recs.length - 1 + 1 = recs.length by omega]; exact hpe)
  have hwalk := drain_afterYield_walk (idealServer recs) sty (P : Int)
    (some (N : Int)) ((N : Nat) : Int) 0 none
    ⟨some (N : Int), some 0, none, none⟩ (C + 1)
    ⟨x :: rest, decide (N < recs.length), (recs.length : Int), none, none⟩
    rest 0 (0 + 1) _
    (by push_cast; omega)
    (by rw [show 0 + rest.length = recs.length - 1 by omega]; exact hend)
  have hfin := genDrain_of_yield (idealServer recs) hstep hwalk
  have hfuel2 : 0 + 1 + rest.length + 1 ≤ fuel := by omega
  have hmono := genDrain_mono_le (idealServer recs) hfuel2 _ _ hfin
  refine ⟨⟨sty, (P : Int), some (N : Int), (N : Int), 0 + (P : Int), none,
    recs.length, false, ⟨some (N : Int), some 0, none, none⟩, C + 1,
    .finished⟩, ?_, rfl⟩
  rw [hmono]
  congr 2
  simp only [List.append_nil]
  rw [hxr]

end PagingLemmas

/-- C10 witness: a concrete successful decorate exhibits the invariant. -/
theorem C10_header_invariant_witness :
    ∃ tok,
      (Renewing.set_authorization_header .refreshToken ⟨some "t", some 10, none⟩ 5
        (.ok []) []).st.access_token = some tok ∧
      dictGet (Renewing.set_authorization_header .refreshToken ⟨some "t", some 10, none⟩ 5
        (.ok []) []).headers "Authorization" = some ("Bearer " ++ tok) :=
  C10_header_invariant .refreshToken ⟨some "t", some 10, none⟩ 5 (.ok []) [] (by decide)


/-- C7: over a conforming offset-style endpoint (HAS_NEXT or TOTAL paging)
holding more than N records, a PaginatedResource with num_results = N and
page size P < N drains to exactly the first N records in ceil(N/P) fetch
calls, and with num_results = None it drains to every record. -/
theorem C7_pagination_exactness {α : Type} (recs : List α) (sty : Int)
    (hsty : sty = Paging.PAGING_STYLE_HAS_NEXT ∨ sty = Paging.PAGING_STYLE_TOTAL)
    (N P : Nat) (hP : 0 < P) (hPN : P < N) (hlen : N < recs.length) :
    (∃ stF, Paging.genDrain (Paging.idealServer recs) (2 * N + 2)
        (Paging.mkGenSt α sty (some (N : Int)) (P : Int) none 0) =
        some (recs.take N, stF) ∧ stF.calls = (N + P - 1) / P) ∧
    (∃ stF, Paging.genDrain (Paging.idealServer recs) (2 * recs.length + 2)
        (Paging.mkGenSt α sty none (P : Int) none 0) =
        some (recs, stF)) := by
  constructor
  · obtain ⟨stF, hrun, hcalls, hflag⟩ :=
      drain_budget_loop recs sty hsty N P hP
        (le_of_lt hPN) (le_of_lt hlen) N 0 0 ⟨none, none, none, none⟩ none
        (2 * N + 1) (by omega) (by omega) (by omega)
    simp only [Nat.zero_mul, Nat.cast_zero, Nat.sub_zero, List.drop_zero,
      Nat.zero_add] at hrun hcalls
    have hstep0 : Paging.genStep (Paging.idealServer recs)
        (Paging.mkGenSt α sty (some (N : Int)) (P : Int) none 0) =
        .inl ⟨sty, (P : Int), some (N : Int), min (N : Int) (P : Int), 0, none,
          0, false, ⟨none, none, none, none⟩, 0, .loopTop⟩ := rfl
    rw [show min (N : Int) (P : Int) = (P : Int) by omega] at hstep0
    have hfin := genDrain_of_inl (Paging.idealServer recs) hstep0 hrun
    rw [show 2 * N + 1 + 1 = 2 * N + 2 by omega] at hfin
    exact ⟨stF, hfin, hcalls⟩
  · obtain ⟨stF, hrun, hflag⟩ :=
      drain_unbounded_loop recs sty hsty P hP
        recs.length 0 0 0 ⟨none, none, none, none⟩ none
        (2 * recs.length + 1) (by omega) (by omega) (by omega)
    simp only [Nat.zero_mul, Nat.cast_zero, List.drop_zero] at hrun
    have hstep0 : Paging.genStep (Paging.idealServer recs)
        (Paging.mkGenSt α sty none (P : Int) none 0) =
        .inl ⟨sty, (P : Int), none, (P : Int), 0, none,
          0, false, ⟨none, none, none, none⟩, 0, .loopTop⟩ := rfl
    have hfin := genDrain_of_inl (Paging.idealServer recs) hstep0 hrun
    rw [show 2 * recs.length + 1 + 1 = 2 * recs.length + 2 by omega] at hfin
    exact ⟨stF, hfin⟩


/-- C7 witness: five records, budget 3, page size 2 — the bounded drain
yields the first three records in two calls and the unbounded drain
yields all five. -/
theorem C7_pagination_exactness_witness :
    (∃ stF, Paging.genDrain (Paging.idealServer [10, 20, 30, 40, 50]) 8
        (Paging.mkGenSt Nat Paging.PAGING_STYLE_HAS_NEXT (some 3) 2 none 0) =
        some ([10, 20, 30], stF) ∧ stF.calls = 2) ∧
    (∃ stF, Paging.genDrain (Paging.idealServer [10, 20, 30, 40, 50]) 12
        (Paging.mkGenSt Nat Paging.PAGING_STYLE_HAS_NEXT none 2 none 0) =
        some ([10, 20, 30, 40, 50], stF)) :=
  C7_pagination_exactness [10, 20, 30, 40, 50] Paging.PAGING_STYLE_HAS_NEXT
    (Or.inl rfl) 3 2 (by decide) (by decide) (by decide)

/-- C8 counterexample: one record, budget num_results = 1. The drain
consumes the whole result set (one record, nothing left over), yet the
early-return at num_results_fetched >= num_results still sets
limit_less_than_available_results, so the flag does not mean the result
set held strictly more records than the budget. -/
theorem C8_flag_counterexample :
    (Paging.genDrain (Paging.idealServer [0]) 10
      (Paging.mkGenSt Nat Paging.PAGING_STYLE_HAS_NEXT (some 1) 1 none 0)).map
        (fun r => (r.1, r.2.flag)) = some ([0], true) ∧
    ¬(1 < ([0] : List Nat).length) :=
  ⟨rfl, by decide⟩

/-- C8 amended: a next() call that delivers an item never shows the flag
true if it was false, so the flag stays false while consumption is in
progress; and after a full drain of a bounded request against the
conforming endpoint of any paging style the flag is true exactly when the
endpoint held at least num_results records — i.e. when the budget was
filled — not only when it held strictly more. -/
theorem C8_flag_amended {α : Type} (recs : List α) (sty : Int)
    (hsty : sty = Paging.PAGING_STYLE_HAS_NEXT ∨ sty = Paging.PAGING_STYLE_TOTAL ∨
      sty = Paging.PAGING_STYLE_LAST_KEY ∨ sty = Paging.PAGING_STYLE_MARKER)
    (N P : Nat) (hP : 0 < P) (hN : 0 < N) :
    (∀ (server : Paging.PagParams → Paging.Page α) (fuel : Nat)
        (r r2 : Paging.PagRes α) (x : α),
      Paging.limit_less_than_available_results r = false →
      Paging.pagRes_next server fuel r = some (r2, .item x) →
      Paging.limit_less_than_available_results r2 = false) ∧
    (∃ stF, Paging.genDrain (Paging.conformingServer sty recs)
        (2 * N + 2 * recs.length + 4)
        (Paging.mkGenSt α sty (some (N : Int)) (P : Int) none 0) =
        some (recs.take N, stF) ∧
      (stF.flag = true ↔ N ≤ recs.length)) := by
  constructor
  · intro server fuel r r2 x hf h
    exact pagRes_next_item_flag server fuel r r2 x hf h
  · have hcases : (sty = Paging.PAGING_STYLE_HAS_NEXT ∨
        sty = Paging.PAGING_STYLE_TOTAL) ∨
        (sty = Paging.PAGING_STYLE_LAST_KEY ∨
          sty = Paging.PAGING_STYLE_MARKER) := by tauto
    rcases hcases with hoff | hkey
    · -- offset styles against the conforming offset endpoint
      have hcs : Paging.conformingServer sty recs = Paging.idealServer recs := by
        unfold Paging.conformingServer
        rw [if_neg (by rcases hoff with rfl | rfl <;>
          simp [Paging.PAGING_STYLE_HAS_NEXT, Paging.PAGING_STYLE_TOTAL,
            Paging.PAGING_STYLE_LAST_KEY, Paging.PAGING_STYLE_MARKER])]
      rw [hcs]
      have hstep0 : Paging.genStep (Paging.idealServer recs)
          (Paging.mkGenSt α sty (some (N : Int)) (P : Int) none 0) =
          .inl ⟨sty, (P : Int), some (N : Int), min (N : Int) (P : Int), 0, none,
            0, false, ⟨none, none, none, none⟩, 0, .loopTop⟩ := rfl
      rcases Nat.eq_zero_or_pos recs.length with hz | hposlen
      · -- empty result set: a single empty page ends the loop
        obtain rfl : recs = [] := List.length_eq_zero.mp hz
        rw [show min ((N : Nat) : Int) ((P : Nat) : Int) =
          ((min N P : Nat) : Int) by omega] at hstep0
        have hrun := drain_empty (α := α) sty hoff (some (N : Int))
          ((min N P : Nat) : Int) (P : Int) none ⟨none, none, none, none⟩ 0 0
          (by omega) (by omega)
          (by show ¬((0 : Int) + ((min N P : Nat) : Int) > (N : Int)); omega)
        have hfin := genDrain_of_inl (Paging.idealServer ([] : List α)) hstep0 hrun
        refine ⟨⟨sty, (P : Int), some (N : Int), ((min N P : Nat) : Int),
          0 + (P : Int), none, 0, false,
          ⟨some ((min N P : Nat) : Int), some 0, none, none⟩, 0 + 1,
          .finished⟩, ?_, ?_⟩
        · rw [List.take_nil]
          exact genDrain_mono_le (Paging.idealServer ([] : List α)) (by omega)
            _ _ hfin
        · exact iff_of_false (by simp) (by simp only [List.length_nil]; omega)
      · by_cases hle : N ≤ recs.length
        · -- budget satisfiable: drain stops at the Nth record, flag set
          by_cases hPN : P ≤ N
          · obtain ⟨stF, hrun, hcalls, hflag⟩ :=
              drain_budget_loop recs sty hoff N P hP hPN hle N 0 0
                ⟨none, none, none, none⟩ none (2 * N + 1)
                (by omega) (by omega) (by omega)
            simp only [Nat.zero_mul, Nat.cast_zero, Nat.sub_zero,
              List.drop_zero, Nat.zero_add] at hrun hcalls
            rw [show min ((N : Nat) : Int) ((P : Nat) : Int) = ((P : Nat) : Int)
              by omega] at hstep0
            have hfin := genDrain_of_inl (Paging.idealServer recs) hstep0 hrun
            exact ⟨stF, genDrain_mono_le (Paging.idealServer recs) (by omega)
              _ _ hfin, iff_of_true hflag hle⟩
          · rw [show min ((N : Nat) : Int) ((P : Nat) : Int) = ((N : Nat) : Int)
              by omega] at hstep0
            obtain ⟨stF, hrun, hflag⟩ := drain_offset_bigcap_budget recs sty
              hoff N P hN (by omega) hle 0 (N + 1) (Nat.le_refl _)
            have hfin := genDrain_of_inl (Paging.idealServer recs) hstep0 hrun
            exact ⟨stF, genDrain_mono_le (Paging.idealServer recs) (by omega)
              _ _ hfin, iff_of_true hflag hle⟩
        · -- result set smaller than the budget: full drain, flag unset
          rw [show recs.take N = recs from List.take_of_length_le (by omega)]
          by_cases hPN : P ≤ N
          · obtain ⟨stF, hrun, hflag⟩ :=
              drain_starve_loop recs sty hoff N P hP hPN (by omega)
                recs.length 0 0 ⟨none, none, none, none⟩ none
                (2 * recs.length + 1) (by omega) (by omega) (by omega)
            simp only [Nat.zero_mul, Nat.cast_zero, List.drop_zero] at hrun
            rw [show min ((N : Nat) : Int) ((P : Nat) : Int) = ((P : Nat) : Int)
              by omega] at hstep0
            have hfin := genDrain_of_inl (Paging.idealServer recs) hstep0 hrun
            exact ⟨stF, genDrain_mono_le (Paging.idealServer recs) (by omega)
              _ _ hfin, iff_of_false (by simp [hflag]) (by omega)⟩
          · rw [show min ((N : Nat) : Int) ((P : Nat) : Int) = ((N : Nat) : Int)
              by omega] at hstep0
            obtain ⟨stF, hrun, hflag⟩ := drain_offset_bigcap_starve recs sty
              hoff N P hN (by omega) hposlen (by omega) 0
              (recs.length + 2) (Nat.le_refl _)
            have hfin := genDrain_of_inl (Paging.idealServer recs) hstep0 hrun
            exact ⟨stF, genDrain_mono_le (Paging.idealServer recs) (by omega)
              _ _ hfin, iff_of_false (by simp [hflag]) (by omega)⟩
    · -- keyed styles against the conforming keyed endpoint; the constant
      -- page limit is min N P in every call
      have hcs : Paging.conformingServer sty recs =
          Paging.idealServerKeyed recs := by
        unfold Paging.conformingServer
        rw [if_pos hkey]
      rw [hcs]
      have hstep0 : Paging.genStep (Paging.idealServerKeyed recs)
          (Paging.mkGenSt α sty (some (N : Int)) (P : Int) none 0) =
          .inl ⟨sty, (P : Int), some (N : Int), min (N : Int) (P : Int), 0, none,
            0, false, ⟨none, none, none, none⟩, 0, .loopTop⟩ := rfl
      rw [show min ((N : Nat) : Int) ((P : Nat) : Int) =
        ((min N P : Nat) : Int) by omega] at hstep0
      rcases Nat.eq_zero_or_pos recs.length with hz | hposlen
      · obtain rfl : recs = [] := List.length_eq_zero.mp hz
        obtain ⟨stF, hrun, hflag⟩ := drain_keyed_empty (α := α) sty hkey
          (some (N : Int)) (min N P) (P : Int) 0 0
          (by show ¬((0 : Int) + ((min N P : Nat) : Int) > (N : Int)); omega)
        have hfin := genDrain_of_inl (Paging.idealServerKeyed ([] : List α))
          hstep0 hrun
        refine ⟨stF, ?_, ?_⟩
        · rw [List.take_nil]
          exact genDrain_mono_le (Paging.idealServerKeyed ([] : List α))
            (by omega) _ _ hfin
        · exact iff_of_false (by simp [hflag])
            (by simp only [List.length_nil]; omega)
      · by_cases hle : N ≤ recs.length
        · obtain ⟨stF, hrun, hflag⟩ := drain_keyed_budget_loop recs sty hkey
            N (min N P) (P : Int) (by omega) (by omega) hle N 0 0 none
            ⟨none, none, none, none⟩ (2 * N + 1)
            (Or.inl ⟨rfl, rfl, rfl, rfl⟩) (by omega) (by omega) (by omega)
          simp only [Nat.zero_mul, List.drop_zero, Nat.sub_zero] at hrun
          have hfin := genDrain_of_inl (Paging.idealServerKeyed recs) hstep0 hrun
          exact ⟨stF, genDrain_mono_le (Paging.idealServerKeyed recs) (by omega)
            _ _ hfin, iff_of_true hflag hle⟩
        · rw [show recs.take N = recs from List.take_of_length_le (by omega)]
          obtain ⟨stF, hrun, hflag⟩ := drain_keyed_starve_loop recs sty hkey
            N (min N P) (P : Int) (by omega) (by omega) (by omega)
            recs.length 0 0 none ⟨none, none, none, none⟩
            (2 * recs.length + 1)
            (Or.inl ⟨rfl, rfl, rfl, rfl⟩) (by omega) (by omega) (by omega)
          simp only [Nat.zero_mul, List.drop_zero] at hrun
          have hfin := genDrain_of_inl (Paging.idealServerKeyed recs) hstep0 hrun
          exact ⟨stF, genDrain_mono_le (Paging.idealServerKeyed recs) (by omega)
            _ _ hfin, iff_of_false (by simp [hflag]) (by omega)⟩

/-- C8 witness: two records, budget 1, MARKER paging with page cap 5 —
after the drain the flag is set and the budget was indeed coverable by
the result set. -/
theorem C8_flag_amended_witness :
    ∃ stF, Paging.genDrain
        (Paging.conformingServer Paging.PAGING_STYLE_MARKER [10, 20]) 10
        (Paging.mkGenSt Nat Paging.PAGING_STYLE_MARKER (some 1) 5 none 0) =
        some ([10], stF) ∧
      (stF.flag = true ↔ 1 ≤ ([10, 20] : List Nat).length) :=
  (C8_flag_amended [10, 20] Paging.PAGING_STYLE_MARKER
    (Or.inr (Or.inr (Or.inr rfl))) 1 5 (by decide) (by decide)).2

end GlobusSDK
